import Mathlib

/-!
Verification of the 2000.news satirical-newspaper pipeline.

This file gives a shallow embedding, in Lean 4, of the parts of the
repository that the specification claims talk about:

* `src/backend/Tournament/tournament.py` — the progressive tournament
  (`run_tournament`, `split_by_rank`, `update_survivors`,
  `update_non_survivors`, `is_final_run`, `rank_group`,
  `polish_top_headlines`, `_do_api_call`);
* `src/backend/Subvert/subvert.py` — the stream consumer
  (`subvert`, `do_headlines_exist_for_story`);
* `src/backend/Fetch/fetch.py` and
  `src/backend/Fetch/stories_repository.py` — the story ingestor
  (`save_story`);
* `src/backend/Get/get.py` — the reader selector (`get`,
  `select_headlines`).

Nondeterminism in the Python source (random shuffles, `random.choice`,
LLM responses, thread-completion order) is modelled by explicit function
parameters; the claims are quantified over those parameters.  Machine
randomness never carries semantic weight in the claims, so this is a
faithful resolution.  The DynamoDB store is modelled as Lean lists and
records; single-item `update_item` expressions become record updates.
-/

namespace News2000

/-! ## Tournament: group distribution (tournament.py, distribute_into_groups) -/

/-- One slice step of `distribute_into_groups`: the first `rem` groups get
`base + 1` items, the rest get `base` (tournament.py lines 338-350).
`g` counts the groups still to emit. -/
def distributeGo (base : Nat) : List Nat → Nat → Nat → List (List Nat)
  | _, 0, _ => []
  | items, g + 1, rem =>
    let size := base + (if 0 < rem then 1 else 0)
    items.take size :: distributeGo base (items.drop size) g (rem - 1)

/-- `distribute_into_groups(items, num_groups)`: distribute items as evenly as
possible into `num_groups` groups (tournament.py lines 338-350). -/
def distribute_into_groups (items : List Nat) (num_groups : Nat) : List (List Nat) :=
  distributeGo (items.length / num_groups) items num_groups (items.length % num_groups)

theorem distributeGo_length (base : Nat) :
    ∀ (items : List Nat) (g rem : Nat), (distributeGo base items g rem).length = g := by
  intro items g
  induction g generalizing items with
  | zero => intro rem; rfl
  | succ g ih => intro rem; simp [distributeGo, ih]

theorem distribute_into_groups_length (items : List Nat) (num_groups : Nat) :
    (distribute_into_groups items num_groups).length = num_groups :=
  distributeGo_length _ _ _ _

/-! ## Tournament: elimination rounds (tournament.py, run_tournament lines 280-314)

Headlines are identified by their `headline_id`, modelled as `Nat`.  The
judge model (`rank_group`'s behaviour for one group, i.e. one LLM call
plus parsing) is a parameter `judge : List Nat → List Nat` taking a group
and returning the group ordered best-to-worst.  The initial
`random.shuffle(candidates)` is absorbed into the `candidates` argument:
the embedding receives the already-shuffled list.  Thread completion
order (`as_completed`) is resolved to submission order.

The `while len(remaining) > 20` loop is translated with explicit fuel;
`candidates.length` fuel always suffices because each round's survivor
list (`top 3 of each of round(n/15) groups`) is strictly shorter than
`n` whenever `n > 20`, but none of the claims need that sufficiency. -/

/-- `round(len(remaining) / 15)` as computed by Python's `round` — the
argument is never an exact half (15 ∤ 2n+15 for integer n), so this is
ordinary rounding: `⌊(2n + 15) / 30⌋`. -/
def numGroupsOf (n : Nat) : Nat := max 1 ((2 * n + 15) / 30)

/-- The elimination rounds of `run_tournament` (lines 280-314).  Returns the
list of elimination rounds in chronological order — each round a list of
`(headline_id, intra-group position)` pairs, positions counted from 3 as in
`enumerate(losers, start=3)` — together with the final remaining list. -/
def tournamentRounds (judge : List Nat → List Nat) :
    Nat → List Nat → List (List (Nat × Nat)) × List Nat
  | 0, remaining => ([], remaining)
  | fuel + 1, remaining =>
    if remaining.length > 20 then
      let groups := distribute_into_groups remaining (numGroupsOf remaining.length)
      let ordereds := groups.map judge
      let next_remaining := (ordereds.map (fun o => o.take 3)).flatten
      let round_eliminated :=
        (ordereds.map (fun o => (List.enumFrom 3 (o.drop 3)).map (fun p => (p.2, p.1)))).flatten
      let rest := tournamentRounds judge fuel next_remaining
      (round_eliminated :: rest.1, rest.2)
    else ([], remaining)

/-! ## Tournament: rank assignment (tournament.py, run_tournament lines 320-332) -/

/-- Python's `list.sort(key=lambda x: x[1])` on the eliminated pairs:
a stable sort by intra-group position.  (Any stable sort computes the same
list, so insertion sort models Timsort faithfully.) -/
def sortByPos (round_eliminated : List (Nat × Nat)) : List (Nat × Nat) :=
  List.insertionSort (fun a b => a.2 ≤ b.2) round_eliminated

/-- `itertools.groupby(..., key=lambda x: x[1])`: group consecutive entries
with equal position. -/
def groupByPos : List (Nat × Nat) → List (List (Nat × Nat))
  | [] => []
  | x :: xs =>
    match groupByPos xs with
    | [] => [[x]]
    | [] :: gs => [x] :: [] :: gs
    | (y :: g) :: gs =>
      if x.2 = y.2 then (x :: y :: g) :: gs else [x] :: (y :: g) :: gs

/-- The position tiers of one elimination round: sort the eliminated pairs by
intra-group position, group runs of equal position, and keep the headline ids
(run_tournament lines 327-332). -/
def roundTiers (round_eliminated : List (Nat × Nat)) : List (List Nat) :=
  (groupByPos (sortByPos round_eliminated)).map (fun g => g.map Prod.fst)

/-- The `headlines_by_rank` dictionary: rank keys are assigned consecutively
starting from `n` (`current_rank` in the source), one per tier; the insertion-
ordered dict is modelled as an association list. -/
def buildRanks (n : Nat) : List (List Nat) → List (Nat × List Nat)
  | [] => []
  | tier :: rest => (n, tier) :: buildRanks (n + 1) rest

/-- Rank assignment of `run_tournament` (lines 320-332): every final-round
headline gets its own consecutive rank starting at 1; then the elimination
rounds are consumed in reverse chronological order, each round contributing
its position tiers, one rank per tier. -/
def assign_ranks (final_ordered : List Nat)
    (elimination_rounds : List (List (Nat × Nat))) : List (Nat × List Nat) :=
  buildRanks 1
    (final_ordered.map (fun h => [h]) ++ (elimination_rounds.reverse.map roundTiers).flatten)

/-- `run_tournament(candidates)` (lines 271-335), with the judge behaviour as
an explicit parameter and the initial shuffle absorbed into `candidates`. -/
def run_tournament (judge : List Nat → List Nat) (candidates : List Nat) :
    List (Nat × List Nat) :=
  let rounds := tournamentRounds judge candidates.length candidates
  let final_ordered := judge rounds.2
  assign_ranks final_ordered rounds.1

/-! ## Tournament: survivor split (tournament.py, split_by_rank lines 207-224) -/

/-- The loop of `split_by_rank`: first `survivor_count` ranked entries keep
their rank, the rest are collected as bare headline ids. -/
def splitLoop (K : Nat) :
    List (Nat × Nat) → List (Nat × Nat) × List Nat → List (Nat × Nat) × List Nat
  | [], acc => acc
  | x :: xs, (surv, non) =>
    if surv.length < K then splitLoop K xs (surv ++ [x], non)
    else splitLoop K xs (surv, non ++ [x.2])

/-- `split_by_rank(headlines_by_rank, survivor_count)` (lines 207-224):
flatten the rank dictionary in rank order (the association list is already in
ascending rank order, matching `sorted(keys, key=int)`), then split at
`survivor_count`. -/
def split_by_rank (headlines_by_rank : List (Nat × List Nat)) (survivor_count : Nat) :
    List (Nat × Nat) × List Nat :=
  let all_ranked := headlines_by_rank.flatMap (fun rt => rt.2.map (fun hid => (rt.1, hid)))
  splitLoop survivor_count all_ranked ([], [])

/-- `SURVIVOR_COUNT = 64` (tournament.py line 36). -/
def SURVIVOR_COUNT : Nat := 64

/-! ## Lemmas about `buildRanks` -/

theorem buildRanks_length (n : Nat) (tiers : List (List Nat)) :
    (buildRanks n tiers).length = tiers.length := by
  induction tiers generalizing n with
  | nil => rfl
  | cons t rest ih => simp [buildRanks, ih]

theorem buildRanks_getElem? (n : Nat) (tiers : List (List Nat)) (i : Nat) :
    (buildRanks n tiers)[i]? = tiers[i]?.map (fun t => (n + i, t)) := by
  induction tiers generalizing n i with
  | nil => simp [buildRanks]
  | cons t rest ih =>
    cases i with
    | zero => simp [buildRanks]
    | succ i =>
      simp only [buildRanks, List.getElem?_cons_succ, ih (n + 1) i]
      have e : n + 1 + i = n + (i + 1) := by omega
      rw [e]

theorem buildRanks_map_fst (n : Nat) (tiers : List (List Nat)) :
    (buildRanks n tiers).map Prod.fst = List.range' n tiers.length := by
  induction tiers generalizing n with
  | nil => rfl
  | cons t rest ih => simp [buildRanks, List.range'_succ, ih]

theorem buildRanks_map_snd (n : Nat) (tiers : List (List Nat)) :
    (buildRanks n tiers).map Prod.snd = tiers := by
  induction tiers generalizing n with
  | nil => rfl
  | cons t rest ih => simp [buildRanks, ih]

theorem buildRanks_append (n : Nat) (a b : List (List Nat)) :
    buildRanks n (a ++ b) = buildRanks n a ++ buildRanks (n + a.length) b := by
  induction a generalizing n with
  | nil => simp [buildRanks]
  | cons t rest ih =>
    have e1 : buildRanks n ((t :: rest) ++ b) = (n, t) :: buildRanks (n + 1) (rest ++ b) := rfl
    have e2 : buildRanks n (t :: rest) = (n, t) :: buildRanks (n + 1) rest := rfl
    rw [e1, e2, ih (n + 1), List.cons_append]
    have e3 : n + 1 + rest.length = n + (t :: rest).length := by
      simp only [List.length_cons]; omega
    rw [e3]

theorem buildRanks_drop (n k : Nat) (tiers : List (List Nat)) :
    (buildRanks n tiers).drop k = buildRanks (n + k) (tiers.drop k) := by
  induction tiers generalizing n k with
  | nil => simp [buildRanks]
  | cons t rest ih =>
    cases k with
    | zero => simp [buildRanks]
    | succ k =>
      simp only [buildRanks, List.drop_succ_cons, ih (n + 1) k]
      have e : n + 1 + k = n + (k + 1) := by omega
      rw [e]

theorem buildRanks_take (n k : Nat) (tiers : List (List Nat)) :
    (buildRanks n tiers).take k = buildRanks n (tiers.take k) := by
  induction tiers generalizing n k with
  | nil => simp [buildRanks]
  | cons t rest ih =>
    cases k with
    | zero => simp [buildRanks]
    | succ k => simp [buildRanks, ih]

theorem mem_buildRanks_rank_bounds {n : Nat} {tiers : List (List Nat)} {p : Nat × List Nat}
    (hp : p ∈ buildRanks n tiers) : n ≤ p.1 ∧ p.1 < n + tiers.length := by
  induction tiers generalizing n with
  | nil => simp [buildRanks] at hp
  | cons t rest ih =>
    simp only [buildRanks, List.mem_cons] at hp
    rcases hp with h | h
    · subst h
      exact ⟨Nat.le_refl n, by show n < n + (t :: rest).length; simp only [List.length_cons]; omega⟩
    · have := ih h; simp only [List.length_cons]; omega

/-! ## Lemmas about `groupByPos` -/

theorem groupByPos_ne_nil : ∀ (l : List (Nat × Nat)), ∀ g ∈ groupByPos l, g ≠ [] := by
  intro l
  induction l with
  | nil => intro g hg; simp [groupByPos] at hg
  | cons x xs ih =>
    intro g hg
    simp only [groupByPos] at hg
    rcases hmatch : groupByPos xs with _ | ⟨g₀, gs⟩
    · rw [hmatch] at hg; simp at hg; simp [hg]
    · rcases g₀ with _ | ⟨y, g₁⟩
      · exact absurd (hmatch ▸ List.mem_cons_self _ _) (by intro h; exact ih [] h rfl)
      · rw [hmatch] at hg
        by_cases hxy : x.2 = y.2
        · simp only [hxy, if_true] at hg
          rcases List.mem_cons.mp hg with h | h
          · simp [h]
          · exact ih g (hmatch ▸ List.mem_cons_of_mem _ h)
        · simp only [hxy, if_false] at hg
          rcases List.mem_cons.mp hg with h | h
          · simp [h]
          · exact ih g (hmatch ▸ h)

theorem groupByPos_flatten : ∀ (l : List (Nat × Nat)), (groupByPos l).flatten = l := by
  intro l
  induction l with
  | nil => rfl
  | cons x xs ih =>
    simp only [groupByPos]
    rcases hmatch : groupByPos xs with _ | ⟨g₀, gs⟩
    · rw [hmatch] at ih; simp at ih; simp [← ih]
    · rcases g₀ with _ | ⟨y, g₁⟩
      · exact absurd (hmatch ▸ List.mem_cons_self _ _)
          (by intro h; exact groupByPos_ne_nil xs [] h rfl)
      · rw [hmatch] at ih
        by_cases hxy : x.2 = y.2
        · simp only [hxy, if_true]
          simp only [List.flatten_cons] at ih ⊢
          simp [← ih]
        · simp only [hxy, if_false]
          simp only [List.flatten_cons] at ih ⊢
          simp [← ih]

theorem groupByPos_const : ∀ (l : List (Nat × Nat)), ∀ g ∈ groupByPos l,
    ∀ a ∈ g, ∀ b ∈ g, a.2 = b.2 := by
  intro l
  induction l with
  | nil => intro g hg; simp [groupByPos] at hg
  | cons x xs ih =>
    intro g hg
    simp only [groupByPos] at hg
    rcases hmatch : groupByPos xs with _ | ⟨g₀, gs⟩
    · rw [hmatch] at hg; simp at hg; subst hg; simp
    · rcases g₀ with _ | ⟨y, g₁⟩
      · exact absurd (hmatch ▸ List.mem_cons_self _ _)
          (by intro h; exact groupByPos_ne_nil xs [] h rfl)
      · rw [hmatch] at hg
        by_cases hxy : x.2 = y.2
        · simp only [hxy, if_true] at hg
          rcases List.mem_cons.mp hg with h | h
          · subst h
            have hcst : ∀ c ∈ y :: g₁, c.2 = y.2 := fun c hc =>
              ih (y :: g₁) (hmatch ▸ List.mem_cons_self _ _) c hc y (List.mem_cons_self _ _)
            have key : ∀ c ∈ x :: y :: g₁, c.2 = y.2 := by
              intro c hc
              rcases List.mem_cons.mp hc with h' | h'
              · rw [h']; exact hxy
              · exact hcst c h'
            intro a ha b hb
            rw [key a ha, key b hb]
          · exact ih g (hmatch ▸ List.mem_cons_of_mem _ h)
        · simp only [hxy, if_false] at hg
          rcases List.mem_cons.mp hg with h | h
          · subst h; simp
          · exact ih g (hmatch ▸ h)

theorem mem_of_mem_groupByPos {l : List (Nat × Nat)} {g : List (Nat × Nat)}
    (hg : g ∈ groupByPos l) {b : Nat × Nat} (hb : b ∈ g) : b ∈ l := by
  have h : b ∈ (groupByPos l).flatten := List.mem_flatten.mpr ⟨g, hg, hb⟩
  rwa [groupByPos_flatten] at h

instance : IsTotal (Nat × Nat) (fun a b => a.2 ≤ b.2) :=
  ⟨fun a b => Nat.le_total a.2 b.2⟩

instance : IsTrans (Nat × Nat) (fun a b => a.2 ≤ b.2) :=
  ⟨fun _ _ _ h h' => Nat.le_trans h h'⟩

theorem sortByPos_sorted (l : List (Nat × Nat)) :
    (sortByPos l).Sorted (fun a b => a.2 ≤ b.2) :=
  List.sorted_insertionSort _ l

theorem sortByPos_perm (l : List (Nat × Nat)) : (sortByPos l).Perm l :=
  List.perm_insertionSort _ l

theorem groupByPos_sorted_pairwise :
    ∀ (l : List (Nat × Nat)), l.Sorted (fun a b => a.2 ≤ b.2) →
      (groupByPos l).Pairwise (fun g₁ g₂ => ∀ a ∈ g₁, ∀ b ∈ g₂, a.2 < b.2) := by
  intro l
  induction l with
  | nil => intro _; simp [groupByPos]
  | cons x xs ih =>
    intro hs
    rw [List.sorted_cons] at hs
    obtain ⟨hx, hxs⟩ := hs
    have ihp := ih hxs
    simp only [groupByPos]
    split
    · simp
    · next gs heq =>
      exact absurd (heq ▸ List.mem_cons_self _ _)
        (by intro h; exact groupByPos_ne_nil xs [] h rfl)
    · next y g₁ gs heq =>
      rw [heq] at ihp
      rw [List.pairwise_cons] at ihp
      obtain ⟨hhead, htail⟩ := ihp
      by_cases hxy : x.2 = y.2
      · rw [if_pos hxy, List.pairwise_cons]
        refine ⟨?_, htail⟩
        intro g' hg' a ha b hb
        rcases List.mem_cons.mp ha with h' | h'
        · have hlt := hhead g' hg' y (List.mem_cons_self _ _) b hb
          rw [h']
          omega
        · exact hhead g' hg' a h' b hb
      · rw [if_neg hxy, List.pairwise_cons]
        refine ⟨?_, List.pairwise_cons.mpr ⟨hhead, htail⟩⟩
        intro g' hg' a ha b hb
        have hax : a = x := by simpa using ha
        subst hax
        have hy_mem : y ∈ xs :=
          mem_of_mem_groupByPos (heq ▸ List.mem_cons_self _ _) (List.mem_cons_self _ _)
        have hxyle : a.2 ≤ y.2 := hx y hy_mem
        rcases List.mem_cons.mp hg' with h' | h'
        · have hby : b.2 = y.2 :=
            groupByPos_const xs (y :: g₁) (heq ▸ List.mem_cons_self _ _) b (h' ▸ hb) y
              (List.mem_cons_self _ _)
          omega
        · have hyb : y.2 < b.2 := hhead g' h' y (List.mem_cons_self _ _) b hb
          omega

/-! ## Lemmas about `split_by_rank` -/

theorem splitLoop_spec (K : Nat) :
    ∀ (l : List (Nat × Nat)) (surv : List (Nat × Nat)) (non : List Nat),
      surv.length ≤ K →
      splitLoop K l (surv, non) =
        (surv ++ l.take (K - surv.length), non ++ (l.drop (K - surv.length)).map Prod.snd) := by
  intro l
  induction l with
  | nil => intro surv non _; simp [splitLoop]
  | cons x xs ih =>
    intro surv non h
    simp only [splitLoop]
    by_cases hlt : surv.length < K
    · rw [if_pos hlt, ih (surv ++ [x]) non
        (by simp only [List.length_append, List.length_cons, List.length_nil]; omega)]
      have hk : K - surv.length = (K - (surv ++ [x]).length) + 1 := by
        simp only [List.length_append, List.length_cons, List.length_nil]; omega
      rw [hk]
      simp [List.take_succ_cons, List.drop_succ_cons, List.append_assoc]
    · rw [if_neg hlt, ih surv (non ++ [x.2]) h]
      have hk : K - surv.length = 0 := by omega
      rw [hk]
      simp

theorem split_by_rank_eq (hbr : List (Nat × List Nat)) (K : Nat) :
    split_by_rank hbr K =
      ((hbr.flatMap (fun rt => rt.2.map (fun hid => (rt.1, hid)))).take K,
       ((hbr.flatMap (fun rt => rt.2.map (fun hid => (rt.1, hid)))).drop K).map Prod.snd) := by
  unfold split_by_rank
  rw [splitLoop_spec K _ [] [] (by simp)]
  simp

/-! ## Rank blocks of the elimination rounds -/

/-- Number of position tiers contributed by the last `revIdx` elimination
rounds (the first `revIdx` entries of the reversed round list). -/
def tiersBefore (es : List (List (Nat × Nat))) (revIdx : Nat) : Nat :=
  (((es.reverse.take revIdx).map roundTiers).flatten).length

/-- The rank entries of `assign_ranks f es` that belong to the elimination
round with chronological index `i`. -/
def roundBlock (f : List Nat) (es : List (List (Nat × Nat))) (i : Nat) :
    List (Nat × List Nat) :=
  ((assign_ranks f es).drop (f.length + tiersBefore es (es.length - 1 - i))).take
    (roundTiers (es.getD i [])).length

theorem tiersBefore_le (es : List (List (Nat × Nat))) {a b : Nat} (h : a ≤ b) :
    tiersBefore es a ≤ tiersBefore es b := by
  unfold tiersBefore
  have hpre : es.reverse.take a <+: es.reverse.take b := by
    have e : (es.reverse.take b).take a = es.reverse.take a := by
      rw [List.take_take, Nat.min_eq_left h]
    exact e ▸ List.take_prefix a (es.reverse.take b)
  obtain ⟨t, ht⟩ := hpre
  rw [← ht, List.map_append, List.flatten_append, List.length_append]
  exact Nat.le_add_right _ _

theorem tiersBefore_succ (es : List (List (Nat × Nat))) {r : Nat} (h : r < es.length) :
    tiersBefore es (r + 1)
      = tiersBefore es r + (roundTiers (es.getD (es.length - 1 - r) [])).length := by
  unfold tiersBefore
  rw [List.take_succ, List.getElem?_reverse (by simpa using h)]
  have hb : es.length - 1 - r < es.length := by omega
  rw [List.getElem?_eq_getElem hb, List.getD_eq_getElem es [] hb]
  simp

theorem roundBlock_eq (f : List Nat) (es : List (List (Nat × Nat))) (i : Nat) :
    roundBlock f es i =
      buildRanks (1 + (f.length + tiersBefore es (es.length - 1 - i)))
        (((f.map (fun h => [h]) ++ (es.reverse.map roundTiers).flatten).drop
            (f.length + tiersBefore es (es.length - 1 - i))).take
          (roundTiers (es.getD i [])).length) := by
  unfold roundBlock assign_ranks
  rw [buildRanks_drop, buildRanks_take]

theorem mem_roundBlock_rank_bounds {f : List Nat} {es : List (List (Nat × Nat))} {i : Nat}
    {p : Nat × List Nat} (hp : p ∈ roundBlock f es i) :
    1 + f.length + tiersBefore es (es.length - 1 - i) ≤ p.1 ∧
    p.1 < 1 + f.length + tiersBefore es (es.length - 1 - i)
            + (roundTiers (es.getD i [])).length := by
  rw [roundBlock_eq] at hp
  have hb := mem_buildRanks_rank_bounds hp
  have hlen : (((f.map (fun h => [h]) ++ (es.reverse.map roundTiers).flatten).drop
      (f.length + tiersBefore es (es.length - 1 - i))).take
      (roundTiers (es.getD i [])).length).length ≤ (roundTiers (es.getD i [])).length := by
    simp
  omega

/-! ## Claim C1: rank assignment of a tournament run -/

/-- **C1.** In a tournament run's rank assignment, the final-round ordering
receives ranks 1 through `|final|`; eliminated headlines are then ranked by
consuming the elimination rounds in reverse chronological order (last round
first), grouping each round's eliminated headlines by intra-group finish
position with better positions first, and giving every member of one
position-tier of one round the same next available rank integer, so every
tier of round R-1 receives a strictly better rank than every tier of
round R-2. -/
theorem tournament_rank_assignment_spec
    (f : List Nat) (es : List (List (Nat × Nat))) :
    (∀ i, i < f.length → (assign_ranks f es)[i]? = some (i + 1, [f.getD i 0]))
    ∧ (assign_ranks f es).map Prod.fst
        = List.range' 1 (f.length + ((es.reverse.map roundTiers).flatten).length)
    ∧ (assign_ranks f es).map Prod.snd
        = f.map (fun h => [h]) ++ (es.reverse.map roundTiers).flatten
    ∧ (∀ re ∈ es,
        ((groupByPos (sortByPos re)).flatten).Perm re ∧
        (∀ g ∈ groupByPos (sortByPos re), g ≠ [] ∧ ∀ a ∈ g, ∀ b ∈ g, a.2 = b.2) ∧
        (groupByPos (sortByPos re)).Pairwise (fun g₁ g₂ => ∀ a ∈ g₁, ∀ b ∈ g₂, a.2 < b.2))
    ∧ (∀ i j, i < j → j < es.length →
        ∀ p ∈ roundBlock f es j, ∀ q ∈ roundBlock f es i, p.1 < q.1) := by
  refine ⟨?_, ?_, ?_, ?_, ?_⟩
  · -- final-round singles occupy ranks 1..|f| in order
    intro i hi
    unfold assign_ranks
    rw [buildRanks_getElem?]
    have h1 : i < (f.map (fun h => [h])).length := by simpa using hi
    rw [List.getElem?_append, if_pos h1, List.getElem?_map, List.getElem?_eq_getElem hi]
    simp [List.getD, List.getElem?_eq_getElem hi, Nat.add_comm 1 i]
  · -- ranks are 1, 2, 3, …
    unfold assign_ranks
    rw [buildRanks_map_fst]
    congr 1
    simp
  · -- tiers are final singles then reverse-chronological round tiers
    unfold assign_ranks
    rw [buildRanks_map_snd]
  · -- per-round tier structure
    intro re _
    refine ⟨?_, ?_, groupByPos_sorted_pairwise _ (sortByPos_sorted re)⟩
    · rw [groupByPos_flatten]; exact sortByPos_perm re
    · intro g hg
      exact ⟨groupByPos_ne_nil _ g hg, groupByPos_const _ g hg⟩
  · -- cross-round strictness
    intro i j hij hj p hp q hq
    have hbp := mem_roundBlock_rank_bounds hp
    have hbq := mem_roundBlock_rank_bounds hq
    have hsucc : tiersBefore es ((es.length - 1 - j) + 1)
        = tiersBefore es (es.length - 1 - j)
          + (roundTiers (es.getD (es.length - 1 - (es.length - 1 - j)) [])).length :=
      tiersBefore_succ es (by omega)
    have hidx : es.length - 1 - (es.length - 1 - j) = j := by omega
    rw [hidx] at hsucc
    have hmono : tiersBefore es ((es.length - 1 - j) + 1)
        ≤ tiersBefore es (es.length - 1 - i) := tiersBefore_le es (by omega)
    omega

/-- Witness for C1 at a concrete two-round tournament: rank 1 goes to the
final-round winner. -/
theorem tournament_rank_assignment_spec_witness :
    (assign_ranks [10, 11] [[(5, 3), (6, 4)], [(7, 3), (8, 3)]])[0]? = some (1, [10]) :=
  (tournament_rank_assignment_spec [10, 11] [[(5, 3), (6, 4)], [(7, 3), (8, 3)]]).1 0
    (by decide)

/-! ## Claim C2: survivor cohort ranks -/

/-- The survivor cohort written by one tournament run
(`tournament` lines 154-158: `run_tournament` then `split_by_rank` with
`SURVIVOR_COUNT`, generalized over the cut-off `K`). -/
def day_survivors (judge : List Nat → List Nat) (cands : List Nat) (K : Nat) :
    List (Nat × Nat) :=
  (split_by_rank (run_tournament judge cands) K).1

/-- **C2 counterexample.** With the 23-candidate pool `0..22` and the
identity judge, the survivor cohort S written by the run has |S| = 23, but
rank 7 occurs twice among the survivors (the two 4th-place finishers of the
two elimination groups) and rank 23 = |S| occurs not at all — so the ranks
of S are not the set {1..|S|} without gaps or duplicates. -/
theorem survivor_ranks_counterexample :
    ((day_survivors id (List.range 23) SURVIVOR_COUNT).map Prod.fst).count 7 = 2
    ∧ (day_survivors id (List.range 23) SURVIVOR_COUNT).length = 23
    ∧ ¬ (23 ∈ (day_survivors id (List.range 23) SURVIVOR_COUNT).map Prod.fst) := by
  decide

/-- Two consecutive survivor ranks either repeat (same position tier) or
increase by exactly one. -/
def rankStep (a b : Nat) : Prop := b = a ∨ b = a + 1

theorem chain'_rankStep_replicate (k n : Nat) :
    List.Chain' rankStep (List.replicate k n) := by
  induction k with
  | zero => simp
  | succ k ih =>
    cases k with
    | zero => simp
    | succ k =>
      rw [List.replicate_succ, List.replicate_succ, List.chain'_cons]
      exact ⟨Or.inl rfl, by rw [← List.replicate_succ]; exact ih⟩

theorem getLast?_replicate_pos (k n : Nat) (h : 0 < k) :
    (List.replicate k n).getLast? = some n := by
  rw [List.getLast?_eq_head?_reverse, List.reverse_replicate]
  cases k with
  | zero => omega
  | succ k => rw [List.replicate_succ]; rfl

theorem map_fst_pair_const (t : List Nat) (n : Nat) :
    ((t.map (fun hid => (n, hid))).map Prod.fst) = List.replicate t.length n := by
  induction t with
  | nil => rfl
  | cons a t ih => simp only [List.map_cons, List.length_cons, List.replicate_succ, ih]

/-- The ranks of the flattened rank dictionary (`all_ranked` in
`split_by_rank`) start at `n` and move in steps of 0 or +1, provided every
tier is non-empty. -/
theorem allRanked_ranks_chain :
    ∀ (tiers : List (List Nat)) (n : Nat), (∀ t ∈ tiers, t ≠ []) →
      (tiers ≠ [] →
        (((buildRanks n tiers).flatMap
            (fun rt => rt.2.map (fun hid => (rt.1, hid)))).map Prod.fst).head? = some n)
      ∧ List.Chain' rankStep
          (((buildRanks n tiers).flatMap
              (fun rt => rt.2.map (fun hid => (rt.1, hid)))).map Prod.fst) := by
  intro tiers
  induction tiers with
  | nil => intro n _; exact ⟨fun h => absurd rfl h, by simp [buildRanks]⟩
  | cons t ts ih =>
    intro n hne
    have ht : t ≠ [] := hne t (List.mem_cons_self _ _)
    have hts : ∀ u ∈ ts, u ≠ [] := fun u hu => hne u (List.mem_cons_of_mem _ hu)
    obtain ⟨ihh, ihc⟩ := ih (n + 1) hts
    have hsplit : ((buildRanks n (t :: ts)).flatMap
          (fun rt => rt.2.map (fun hid => (rt.1, hid)))).map Prod.fst
        = List.replicate t.length n
          ++ (((buildRanks (n + 1) ts).flatMap
              (fun rt => rt.2.map (fun hid => (rt.1, hid)))).map Prod.fst) := by
      show (((n, t) :: buildRanks (n + 1) ts).flatMap
          (fun rt => rt.2.map (fun hid => (rt.1, hid)))).map Prod.fst = _
      rw [List.flatMap_cons, List.map_append, map_fst_pair_const]
    constructor
    · intro _
      rw [hsplit]
      cases hl : t.length with
      | zero => exact absurd (List.length_eq_zero.mp hl) ht
      | succ k => rw [List.replicate_succ]; rfl
    · rw [hsplit, List.chain'_append]
      refine ⟨chain'_rankStep_replicate _ _, ihc, ?_⟩
      intro x hx y hy
      have hxn : x = n := by
        have hpos : 0 < t.length := List.length_pos.mpr ht
        rw [getLast?_replicate_pos _ _ hpos] at hx
        exact (Option.some_inj.mp (Option.mem_def.mp hx)).symm
      -- the next block starts with rank n+1 (if it is non-empty at all)
      rcases hts' : ts with _ | ⟨u, us⟩
      · subst hts'
        simp [buildRanks] at hy
      · have hne2 : ts ≠ [] := by rw [hts']; exact List.cons_ne_nil _ _
        rw [ihh hne2] at hy
        have hyn : y = n + 1 := (Option.some_inj.mp (Option.mem_def.mp hy)).symm
        subst hxn; subst hyn
        exact Or.inr rfl

/-- The values of a `rankStep` chain with head `a` are exactly the interval
from `a` to the last element. -/
theorem chain_interval :
    ∀ (l : List Nat), List.Chain' rankStep l → ∀ a, l.head? = some a →
      (∀ r, r ∈ l ↔ (a ≤ r ∧ r ≤ l.getLastD 0)) ∧ l.getLastD 0 + 1 ≤ a + l.length
  | [] => by intro _ a ha; simp at ha
  | [x] => by
    intro _ a ha
    have hax : x = a := by simpa using ha
    subst hax
    have hgl : [x].getLastD 0 = x := rfl
    rw [hgl]
    refine ⟨?_, by simp⟩
    intro r
    simp only [List.mem_singleton]
    omega
  | x :: y :: l => by
    intro hc a ha
    have hax : x = a := by simpa using ha
    subst hax
    rw [List.chain'_cons] at hc
    obtain ⟨hstep, hc'⟩ := hc
    obtain ⟨ihmem, ihlen⟩ := chain_interval (y :: l) hc' y rfl
    have hylast : y ≤ (y :: l).getLastD 0 := ((ihmem y).mp (List.mem_cons_self _ _)).2
    have hlast : (x :: y :: l).getLastD 0 = (y :: l).getLastD 0 := by
      rw [List.getLastD_eq_getLast?, List.getLastD_eq_getLast?, List.getLast?_cons_cons]
    constructor
    · intro r
      rw [hlast]
      constructor
      · intro hr
        rcases List.mem_cons.mp hr with h' | h'
        · subst h'
          rcases hstep with h | h <;> omega
        · have := (ihmem r).mp h'
          rcases hstep with h | h <;> omega
      · intro ⟨h1, h2⟩
        by_cases hyr : y ≤ r
        · exact List.mem_cons_of_mem _ ((ihmem r).mpr ⟨hyr, h2⟩)
        · have : r = x := by rcases hstep with h | h <;> omega
          exact this ▸ List.mem_cons_self _ _
    · rw [hlast]
      simp only [List.length_cons] at ihlen ⊢
      rcases hstep with h | h <;> omega

/-- Every tier of a rank dictionary produced by `run_tournament` is
non-empty: final-round tiers are singletons, and elimination tiers are the
non-empty groups of `itertools.groupby`. -/
theorem assign_ranks_tiers_ne_nil (f : List Nat) (es : List (List (Nat × Nat))) :
    ∀ t ∈ f.map (fun h => [h]) ++ (es.reverse.map roundTiers).flatten, t ≠ [] := by
  intro t ht
  rcases List.mem_append.mp ht with h | h
  · obtain ⟨x, _, hx⟩ := List.mem_map.mp h
    rw [← hx]
    exact List.cons_ne_nil _ _
  · obtain ⟨tl, htl, htmem⟩ := List.mem_flatten.mp h
    obtain ⟨re, _, hre⟩ := List.mem_map.mp htl
    rw [← hre] at htmem
    obtain ⟨g, hg, hgt⟩ := List.mem_map.mp htmem
    rw [← hgt]
    intro hnil
    exact groupByPos_ne_nil _ g hg (List.map_eq_nil_iff.mp hnil)

theorem head?_take_pos {α : Type} {l : List α} {n : Nat} (hn : 0 < n) :
    (l.take n).head? = l.head? := by
  cases l with
  | nil => simp
  | cons a t =>
    cases n with
    | zero => omega
    | succ n => rw [List.take_succ_cons, List.head?_cons, List.head?_cons]

/-- Core of claim C2 over an arbitrary non-empty-tier rank dictionary:
the survivor cohort is bounded by `K` and its ranks are a gapless chain
starting at 1 with steps of 0 or +1. -/
theorem survivors_chain_of_tiers (tiers : List (List Nat)) (K : Nat)
    (hne : ∀ t ∈ tiers, t ≠ []) :
    ((split_by_rank (buildRanks 1 tiers) K).1).length ≤ K
    ∧ List.Chain' rankStep (((split_by_rank (buildRanks 1 tiers) K).1).map Prod.fst)
    ∧ ((split_by_rank (buildRanks 1 tiers) K).1 ≠ [] →
        (((split_by_rank (buildRanks 1 tiers) K).1).map Prod.fst).head? = some 1
        ∧ (∀ r, r ∈ ((split_by_rank (buildRanks 1 tiers) K).1).map Prod.fst ↔
            (1 ≤ r ∧ r ≤ (((split_by_rank (buildRanks 1 tiers) K).1).map Prod.fst).getLastD 0))
        ∧ (((split_by_rank (buildRanks 1 tiers) K).1).map Prod.fst).getLastD 0
            ≤ ((split_by_rank (buildRanks 1 tiers) K).1).length) := by
  have hchain := (allRanked_ranks_chain tiers 1 hne).2
  have hhead := (allRanked_ranks_chain tiers 1 hne).1
  rw [split_by_rank_eq]
  set R := (buildRanks 1 tiers).flatMap (fun rt => rt.2.map (fun hid => (rt.1, hid)))
    with hR
  have hfst :
      ((R.take K, (R.drop K).map Prod.snd).1) = R.take K := rfl
  rw [hfst]
  refine ⟨List.length_take_le _ _, ?_, ?_⟩
  · rw [List.map_take]
    exact hchain.prefix (List.take_prefix _ _)
  · intro hSne
    have h2 := hSne
    rw [Ne, List.take_eq_nil_iff] at h2
    push_neg at h2
    obtain ⟨hK0, hRne⟩ := h2
    have htne : tiers ≠ [] := by
      intro h
      rw [h] at hR
      simp [buildRanks] at hR
      exact hRne hR
    have hh : ((R.take K).map Prod.fst).head? = some 1 := by
      rw [List.map_take, head?_take_pos (Nat.pos_of_ne_zero hK0), hhead htne]
    have hc : List.Chain' rankStep ((R.take K).map Prod.fst) := by
      rw [List.map_take]
      exact hchain.prefix (List.take_prefix _ _)
    obtain ⟨hmem, hlen⟩ := chain_interval _ hc 1 hh
    refine ⟨hh, hmem, ?_⟩
    rw [List.length_map] at hlen
    omega

/-- **C2 (amended).** After any tournament run that ranks candidates, the
survivor cohort S written by that run satisfies |S| ≤ K; the survivor ranks
start at 1 and between consecutive survivors either repeat (members of one
position-tier of one elimination round share one rank) or increase by
exactly 1, so the set of ranks occurring in S is exactly {1..m} where m is
the last (largest) survivor rank and m ≤ |S|.  (The ranks are not, in
general, {1..|S|} without duplicates: a position tier with several members
makes ranks repeat.) -/
theorem survivor_ranks_gapless_amended (judge : List Nat → List Nat)
    (cands : List Nat) (K : Nat) :
    (day_survivors judge cands K).length ≤ K
    ∧ List.Chain' rankStep ((day_survivors judge cands K).map Prod.fst)
    ∧ (day_survivors judge cands K ≠ [] →
        ((day_survivors judge cands K).map Prod.fst).head? = some 1
        ∧ (∀ r, r ∈ (day_survivors judge cands K).map Prod.fst ↔
            (1 ≤ r ∧ r ≤ ((day_survivors judge cands K).map Prod.fst).getLastD 0))
        ∧ ((day_survivors judge cands K).map Prod.fst).getLastD 0
            ≤ (day_survivors judge cands K).length) :=
  survivors_chain_of_tiers
    ((judge (tournamentRounds judge cands.length cands).2).map (fun h => [h])
      ++ (((tournamentRounds judge cands.length cands).1).reverse.map roundTiers).flatten)
    K (assign_ranks_tiers_ne_nil _ _)

/-- Witness for the amended C2 on the 23-candidate run. -/
theorem survivor_ranks_gapless_amended_witness :
    (day_survivors id (List.range 23) 64).length ≤ 64
    ∧ 15 ∈ (day_survivors id (List.range 23) 64).map Prod.fst := by
  refine ⟨(survivor_ranks_gapless_amended id (List.range 23) 64).1, ?_⟩
  exact (((survivor_ranks_gapless_amended id (List.range 23) 64).2.2
    (by decide)).2.1 15).mpr ⟨by decide, by decide⟩

/-! ## The Headline record and the tournament's writes

`SubvertedHeadlines` items, as read and written by the backend.  Fields
that DynamoDB may leave absent are `Option`s (`none` = attribute absent). -/

structure HeadlineRec where
  YearMonthDay : String
  HeadlineId : String
  StoryId : String
  Headline : String
  OriginalHeadline : String
  OriginalSubverted : Option String
  Angle : String
  AngleSetup : String
  Rank : Option Nat
  CrossDayRank : Option Nat
  TournamentBatch : Option Nat
  Survived : Option Bool
deriving Repr, DecidableEq, Inhabited

/-- The `update_item` of `update_survivors` (tournament.py lines 227-240):
`SET Rank = :rank, TournamentBatch = :batch, Survived = :survived`. -/
def update_survivor_item (rank batch : Nat) (survived : Bool) (it : HeadlineRec) :
    HeadlineRec :=
  { it with Rank := some rank, TournamentBatch := some batch, Survived := some survived }

/-- The `update_item` of `update_non_survivors` (tournament.py lines
243-255): `SET TournamentBatch = :batch, Survived = :survived REMOVE Rank`. -/
def update_non_survivor_item (batch : Nat) (survived : Bool) (it : HeadlineRec) :
    HeadlineRec :=
  { it with TournamentBatch := some batch, Survived := some survived, Rank := none }

theorem mem_split_rank_pos (tiers : List (List Nat)) (K : Nat) :
    ∀ p ∈ (split_by_rank (buildRanks 1 tiers) K).1, 1 ≤ p.1 := by
  rw [split_by_rank_eq]
  intro p hp
  have hp2 : p ∈ (buildRanks 1 tiers).flatMap
      (fun rt => rt.2.map (fun hid => (rt.1, hid))) := List.mem_of_mem_take hp
  obtain ⟨rt, hrt, hmem⟩ := List.mem_flatMap.mp hp2
  obtain ⟨hid, _, heq⟩ := List.mem_map.mp hmem
  have hb := (mem_buildRanks_rank_bounds hrt).1
  rw [← heq]
  exact hb

theorem day_survivors_rank_pos (judge : List Nat → List Nat) (cands : List Nat) (K : Nat) :
    ∀ p ∈ day_survivors judge cands K, 1 ≤ p.1 :=
  mem_split_rank_pos
    ((judge (tournamentRounds judge cands.length cands).2).map (fun h => [h])
      ++ (((tournamentRounds judge cands.length cands).1).reverse.map roundTiers).flatten)
    K

/-! ## Claim C3: writes preserve the Survived/Rank invariant -/

/-- **C3.** Every write the tournament engine performs preserves the
invariant: a headline written with `Survived = true` (namely through
`update_survivors`, fed either by `split_by_rank` of a tournament run or by
the literal `[(1, id)]` of the single-headline special case) carries an
integer `Rank ≥ 1` set in the same update, and a headline written with
`Survived = false` (through `update_non_survivors`) has its `Rank` removed
in the same update. -/
theorem survivor_write_invariant (judge : List Nat → List Nat) (cands : List Nat)
    (K batch : Nat) (it : HeadlineRec) :
    (∀ p ∈ day_survivors judge cands K,
      (update_survivor_item p.1 batch true it).Survived = some true
      ∧ ∃ r, (update_survivor_item p.1 batch true it).Rank = some r ∧ 1 ≤ r)
    ∧ ((update_survivor_item 1 1 true it).Survived = some true
        ∧ (update_survivor_item 1 1 true it).Rank = some 1)
    ∧ (∀ batch2 : Nat,
        (update_non_survivor_item batch2 false it).Survived = some false
        ∧ (update_non_survivor_item batch2 false it).Rank = none) := by
  refine ⟨?_, ⟨rfl, rfl⟩, fun _ => ⟨rfl, rfl⟩⟩
  intro p hp
  exact ⟨rfl, p.1, rfl, day_survivors_rank_pos judge cands K p hp⟩

/-- Witness for C3: the survivor entry `(1, 0)` of a two-headline run. -/
theorem survivor_write_invariant_witness :
    (update_survivor_item (1, 0).1 3 true default).Survived = some true
    ∧ ∃ r, (update_survivor_item (1, 0).1 3 true default).Rank = some r ∧ 1 ≤ r :=
  (survivor_write_invariant id [0, 1] 64 3 default).1 (1, 0) (by decide)

/-! ## Claim C5: judge-call failure after all retries

`_do_api_call` (tournament.py lines 439-501) retries up to `MAX_RETRIES`
additional attempts and re-raises the last exception.  `run_tournament`
calls `rank_group` through thread futures and has **no** exception handler
around `future.result()` (lines 294-314), so a judge call that fails after
all retries propagates out of the run.  The per-attempt outcome of the
provider call is the oracle `call : Nat → Except String String`. -/

def MAX_RETRIES : Nat := 4

/-- The retry loop of `_do_api_call`: `n` counts the retries still allowed
after the current `attempt`; when they are exhausted the current failure is
re-raised (`if attempt == MAX_RETRIES: raise`). -/
def retry_loop (call : Nat → Except String String) : Nat → Nat → Except String String
  | 0, attempt => call attempt
  | n + 1, attempt =>
    match call attempt with
    | Except.ok v => Except.ok v
    | Except.error _ => retry_loop call n (attempt + 1)

/-- `_do_api_call` (lines 463-501): attempts `0 .. MAX_RETRIES`. -/
def do_api_call (call : Nat → Except String String) : Except String String :=
  retry_loop call MAX_RETRIES 0

/-- The elimination-round loop with a fallible judge (one judge call per
group; the first failing group's exception propagates, as `future.result()`
re-raises it inside the loop). -/
def tournamentRoundsE (judge : List Nat → Except String (List Nat)) :
    Nat → List Nat → Except String (List (List (Nat × Nat)) × List Nat)
  | 0, remaining => Except.ok ([], remaining)
  | fuel + 1, remaining =>
    if remaining.length > 20 then do
      let groups := distribute_into_groups remaining (numGroupsOf remaining.length)
      let ordereds ← groups.mapM judge
      let next_remaining := (ordereds.map (fun o => o.take 3)).flatten
      let round_eliminated :=
        (ordereds.map (fun o => (List.enumFrom 3 (o.drop 3)).map (fun p => (p.2, p.1)))).flatten
      let rest ← tournamentRoundsE judge fuel next_remaining
      Except.ok (round_eliminated :: rest.1, rest.2)
    else Except.ok ([], remaining)

/-- `run_tournament` with the fallible judge: an uncaught judge exception
(in an elimination group or in the final round) aborts the whole run. -/
def run_tournamentE (judge : List Nat → Except String (List Nat))
    (candidates : List Nat) : Except String (List (Nat × List Nat)) := do
  let rounds ← tournamentRoundsE judge candidates.length candidates
  let final_ordered ← judge rounds.2
  Except.ok (assign_ranks final_ordered rounds.1)

/-- **C5 counterexample.** A 23-candidate run whose judge call fails (after
all retries) on the second elimination group — the group of length 11 —
does **not** complete with that group shuffled: the exception propagates
and the whole run returns an error, so no ranks at all are produced by the
run. -/
theorem judge_failure_aborts_run_counterexample :
    run_tournamentE
      (fun g => if g.length = 11 then Except.error "api failure" else Except.ok g)
      (List.range 23) = Except.error "api failure" := by
  rfl

theorem Except_ok_bind {ε α β : Type} (a : α) (f : α → Except ε β) :
    (Except.ok a >>= f) = f a := rfl

theorem Except_error_bind {ε α β : Type} (e : ε) (f : α → Except ε β) :
    ((Except.error e : Except ε α) >>= f) = Except.error e := rfl

theorem retry_loop_all_fail (call : Nat → Except String String) (e : String) :
    ∀ (n attempt : Nat), (∀ k, k ≤ attempt + n → call k = Except.error e) →
      retry_loop call n attempt = Except.error e := by
  intro n
  induction n with
  | zero =>
    intro attempt h
    have := h attempt (by omega)
    simpa [retry_loop] using this
  | succ n ih =>
    intro attempt h
    simp only [retry_loop]
    rw [h attempt (by omega)]
    exact ih (attempt + 1) (fun k hk => h k (by omega))

theorem tournamentRoundsE_fail (judge : List Nat → Except String (List Nat))
    (e : String) (hj : ∀ g, judge g = Except.error e) :
    ∀ (fuel : Nat) (rem : List Nat),
      tournamentRoundsE judge fuel rem = Except.ok ([], rem)
      ∨ tournamentRoundsE judge fuel rem = Except.error e := by
  intro fuel rem
  cases fuel with
  | zero => left; rfl
  | succ fuel =>
    by_cases h : rem.length > 20
    · right
      have hlen : (distribute_into_groups rem (numGroupsOf rem.length)).length
          = numGroupsOf rem.length := distribute_into_groups_length _ _
      have h1 : 1 ≤ numGroupsOf rem.length := le_max_left _ _
      obtain ⟨g, gs, hd⟩ : ∃ g gs,
          distribute_into_groups rem (numGroupsOf rem.length) = g :: gs := by
        cases hd : distribute_into_groups rem (numGroupsOf rem.length) with
        | nil => rw [hd] at hlen; simp at hlen; omega
        | cons g gs => exact ⟨g, gs, rfl⟩
      simp only [tournamentRoundsE, if_pos h, hd]
      rw [List.mapM_cons, hj g]
      rfl
    · left
      simp only [tournamentRoundsE, if_neg h]

/-- **C5 (amended).** If the judge call for one group fails after all
retries are exhausted, the exception propagates: `_do_api_call` re-raises
the final failure, and `run_tournament` — having no handler — aborts
without producing any ranking, rather than shuffling the group and
completing.  (A group is shuffled only when a *successful* response is
unparseable; prior survivors remain untouched because no write happens in
the aborted run.) -/
theorem judge_failure_propagates (e : String) (call : Nat → Except String String)
    (judge : List Nat → Except String (List Nat)) (cands : List Nat)
    (hcall : ∀ k, k ≤ MAX_RETRIES → call k = Except.error e)
    (hjudge : ∀ g, judge g = Except.error e) :
    do_api_call call = Except.error e
    ∧ run_tournamentE judge cands = Except.error e := by
  constructor
  · exact retry_loop_all_fail call e MAX_RETRIES 0 (fun k hk => hcall k (by omega))
  · rcases tournamentRoundsE_fail judge e hjudge cands.length cands with h | h
    · unfold run_tournamentE
      rw [h, Except_ok_bind, hjudge, Except_error_bind]
    · unfold run_tournamentE
      rw [h, Except_error_bind]

/-- Witness for the amended C5. -/
theorem judge_failure_propagates_witness :
    do_api_call (fun _ => Except.error "boom") = Except.error "boom"
    ∧ run_tournamentE (fun _ => Except.error "boom") [0, 1] = Except.error "boom" :=
  judge_failure_propagates "boom" (fun _ => Except.error "boom")
    (fun _ => Except.error "boom") [0, 1] (fun _ _ => rfl) (fun _ => rfl)

/-! ## Claim C6: the polish pass (tournament.py lines 508-557, 258-264) -/

/-- `is_final_run(today, batch_num)` (lines 258-264): 4th-or-later batch, or
the America/New_York hour is ≥ 21.  The current hour is a parameter. -/
def is_final_run (batch_num hour : Nat) : Bool :=
  decide (4 ≤ batch_num) || decide (21 ≤ hour)

/-- `future.result().strip().strip('"')` (line 543): trim whitespace, then
strip double quotes from both ends. -/
def clean_polished (s : String) : String :=
  ((s.trim).dropWhile (fun c => c == '"')).dropRightWhile (fun c => c == '"')

/-- One polished write applied to one store entry: if the cleaned reply for
the snapshot `h` is non-empty and differs from `h.Headline`, the entry with
`h`'s `HeadlineId` gets `Headline := improved, OriginalSubverted :=
h.Headline` (the `update_item` of lines 546-553); other entries and failed
conditions leave the entry unchanged. -/
def polishStep (model : HeadlineRec → String) (h : HeadlineRec) (it : HeadlineRec) :
    HeadlineRec :=
  if clean_polished (model h) ≠ "" ∧ clean_polished (model h) ≠ h.Headline then
    (if it.HeadlineId == h.HeadlineId then
      { it with Headline := clean_polished (model h), OriginalSubverted := some h.Headline }
    else it)
  else it

/-- `polish_top_headlines(today, survivors)` (lines 508-557).  `store` is the
day's headline list; `model` gives the LLM reply for a headline snapshot
(the prompt is built from the snapshot's fields).  `to_polish` keeps, for
each `(rank, headline_id)` pair, the looked-up headline provided it is not
already polished (`OriginalSubverted` absent); each polish result is then
written back by `HeadlineId`. -/
def polish_targets (store : List HeadlineRec) (survivors : List (Nat × String)) :
    List HeadlineRec :=
  survivors.filterMap (fun p =>
    match store.find? (fun h => h.HeadlineId == p.2) with
    | some h => if h.OriginalSubverted = none then some h else none
    | none => none)

def polish_top_headlines (model : HeadlineRec → String) (store : List HeadlineRec)
    (survivors : List (Nat × String)) : List HeadlineRec :=
  (polish_targets store survivors).foldl (fun st h =>
    if clean_polished (model h) ≠ "" ∧ clean_polished (model h) ≠ h.Headline then
      st.map (fun it => if it.HeadlineId == h.HeadlineId then
        { it with Headline := clean_polished (model h),
                  OriginalSubverted := some h.Headline } else it)
    else st) store

/-- The call site in `tournament` (lines 164-168): polish runs only on a
final run, and only over `survivors[:16]`. -/
def final_polish_step (model : HeadlineRec → String) (batch_num hour : Nat)
    (store : List HeadlineRec) (survivors : List (Nat × String)) : List HeadlineRec :=
  if is_final_run batch_num hour then
    polish_top_headlines model store (survivors.take 16)
  else store

theorem polishStep_pos (model : HeadlineRec → String) (h it : HeadlineRec)
    (hc : clean_polished (model h) ≠ "" ∧ clean_polished (model h) ≠ h.Headline) :
    polishStep model h it = (if it.HeadlineId == h.HeadlineId then
      { it with Headline := clean_polished (model h), OriginalSubverted := some h.Headline }
    else it) := by
  unfold polishStep
  rw [if_pos hc]

theorem polishStep_neg (model : HeadlineRec → String) (h it : HeadlineRec)
    (hc : ¬(clean_polished (model h) ≠ "" ∧ clean_polished (model h) ≠ h.Headline)) :
    polishStep model h it = it := by
  unfold polishStep
  rw [if_neg hc]

theorem polishStep_headlineId (model : HeadlineRec → String) (h x : HeadlineRec) :
    (polishStep model h x).HeadlineId = x.HeadlineId := by
  by_cases hc : clean_polished (model h) ≠ "" ∧ clean_polished (model h) ≠ h.Headline
  · rw [polishStep_pos model h x hc]
    by_cases hid : (x.HeadlineId == h.HeadlineId) = true
    · rw [if_pos hid]
    · rw [if_neg hid]
  · rw [polishStep_neg model h x hc]

theorem polishStep_of_ne (model : HeadlineRec → String) {h x : HeadlineRec}
    (hne : x.HeadlineId ≠ h.HeadlineId) : polishStep model h x = x := by
  by_cases hc : clean_polished (model h) ≠ "" ∧ clean_polished (model h) ≠ h.Headline
  · rw [polishStep_pos model h x hc, if_neg (by simpa using hne)]
  · exact polishStep_neg model h x hc

theorem polishStep_idem (model : HeadlineRec → String) (x : HeadlineRec) :
    polishStep model x (polishStep model x x) = polishStep model x x := by
  by_cases hc : clean_polished (model x) ≠ "" ∧ clean_polished (model x) ≠ x.Headline
  · have hxx : polishStep model x x
        = { x with
            Headline := clean_polished (model x),
            OriginalSubverted := some x.Headline } := by
      rw [polishStep_pos model x x hc, if_pos (by simp)]
    rw [hxx, polishStep_pos model x _ hc, if_pos (by simp)]
  · have hxx : polishStep model x x = x := polishStep_neg model x x hc
    rw [hxx, hxx]

/-- Pointwise description of the polish fold: entry `i` of the result is the
sequential application of all polish writes to entry `i` of the input. -/
theorem polishFold_getElem? (model : HeadlineRec → String) :
    ∀ (ts : List HeadlineRec) (st : List HeadlineRec) (i : Nat),
      (ts.foldl (fun st h =>
        if clean_polished (model h) ≠ "" ∧ clean_polished (model h) ≠ h.Headline then
          st.map (fun it => if it.HeadlineId == h.HeadlineId then
            { it with Headline := clean_polished (model h),
                      OriginalSubverted := some h.Headline } else it)
        else st) st)[i]?
      = st[i]?.map (fun x => ts.foldl (fun x h => polishStep model h x) x) := by
  intro ts
  induction ts with
  | nil =>
    intro st i
    simp
  | cons h ts ih =>
    intro st i
    simp only [List.foldl_cons]
    rw [ih]
    have hbody : (if clean_polished (model h) ≠ "" ∧ clean_polished (model h) ≠ h.Headline then
        st.map (fun it => if it.HeadlineId == h.HeadlineId then
          { it with
            Headline := clean_polished (model h),
            OriginalSubverted := some h.Headline } else it)
      else st)[i]? = st[i]?.map (polishStep model h) := by
      split
      · next hc =>
        rw [List.getElem?_map]
        cases st[i]? with
        | none => rfl
        | some a =>
          simp only [Option.map_some']
          rw [polishStep_pos model h a hc]
      · next hc =>
        cases hst : st[i]? with
        | none => rfl
        | some a =>
          simp only [Option.map_some']
          rw [polishStep_neg model h a hc]
    rw [hbody]
    cases st[i]? with
    | none => rfl
    | some a => rfl

theorem mem_polish_targets_iff {store : List HeadlineRec} {survivors : List (Nat × String)}
    (hnodup : (store.map HeadlineRec.HeadlineId).Nodup) (x : HeadlineRec) (hx : x ∈ store) :
    (x ∈ polish_targets store survivors
      ↔ (x.OriginalSubverted = none ∧ x.HeadlineId ∈ survivors.map Prod.snd)) := by
  have hinj : ∀ a ∈ store, ∀ b ∈ store, a.HeadlineId = b.HeadlineId → a = b :=
    List.inj_on_of_nodup_map hnodup
  constructor
  · intro hmem
    obtain ⟨p, hp, hpf⟩ := List.mem_filterMap.mp hmem
    rcases hfind : store.find? (fun h => h.HeadlineId == p.2) with _ | h
    · rw [hfind] at hpf; exact absurd hpf (by simp)
    · rw [hfind] at hpf
      have hpf2 : (if h.OriginalSubverted = none then some h else none) = some x := hpf
      by_cases hOS : h.OriginalSubverted = none
      · rw [if_pos hOS] at hpf2
        have hhx : h = x := Option.some_inj.mp hpf2
        subst hhx
        have hid : (h.HeadlineId == p.2) = true := by
          have h2 := List.find?_some hfind
          simpa using h2
        exact ⟨hOS, List.mem_map.mpr ⟨p, hp, (eq_of_beq hid).symm⟩⟩
      · rw [if_neg hOS] at hpf2
        exact absurd hpf2 (by simp)
  · intro ⟨hOS, hid⟩
    obtain ⟨p, hp, hpid⟩ := List.mem_map.mp hid
    have hsome : (store.find? (fun h => h.HeadlineId == p.2)).isSome := by
      rw [List.find?_isSome]
      exact ⟨x, hx, by rw [hpid]; simp⟩
    obtain ⟨h, hfind⟩ := Option.isSome_iff_exists.mp hsome
    have hmemh : h ∈ store := List.mem_of_find?_eq_some hfind
    have hidh : (h.HeadlineId == p.2) = true := by
      have h2 := List.find?_some hfind
      simpa using h2
    have hhx : h = x := hinj h hmemh x hx (by rw [eq_of_beq hidh, hpid])
    subst hhx
    refine List.mem_filterMap.mpr ⟨p, hp, ?_⟩
    rw [hfind]
    show (if h.OriginalSubverted = none then some h else none) = some h
    rw [if_pos hOS]

theorem polish_targets_sub {store : List HeadlineRec} {survivors : List (Nat × String)}
    {h : HeadlineRec} (hmem : h ∈ polish_targets store survivors) :
    h ∈ store ∧ h.OriginalSubverted = none ∧ h.HeadlineId ∈ survivors.map Prod.snd := by
  obtain ⟨p, hp, hpf⟩ := List.mem_filterMap.mp hmem
  rcases hfind : store.find? (fun g => g.HeadlineId == p.2) with _ | g
  · rw [hfind] at hpf; exact absurd hpf (by simp)
  · rw [hfind] at hpf
    have hpf2 : (if g.OriginalSubverted = none then some g else none) = some h := hpf
    by_cases hOS : g.OriginalSubverted = none
    · rw [if_pos hOS] at hpf2
      have hgh : g = h := Option.some_inj.mp hpf2
      subst hgh
      have hid : (g.HeadlineId == p.2) = true := by
        have h2 := List.find?_some hfind
        simpa using h2
      exact ⟨List.mem_of_find?_eq_some hfind, hOS,
        List.mem_map.mpr ⟨p, hp, (eq_of_beq hid).symm⟩⟩
    · rw [if_neg hOS] at hpf2
      exact absurd hpf2 (by simp)

theorem applyAll_absorb (model : HeadlineRec → String) (x : HeadlineRec) :
    ∀ ts : List HeadlineRec, (∀ h ∈ ts, h.HeadlineId = x.HeadlineId → h = x) →
      ts.foldl (fun y h => polishStep model h y) (polishStep model x x)
        = polishStep model x x := by
  intro ts
  induction ts with
  | nil => intro _; rfl
  | cons h ts ih =>
    intro hprop
    rw [List.foldl_cons]
    have hstep : polishStep model h (polishStep model x x) = polishStep model x x := by
      by_cases hhx : h = x
      · subst hhx; exact polishStep_idem model h
      · have hid : (polishStep model x x).HeadlineId ≠ h.HeadlineId := by
          rw [polishStep_headlineId]
          intro he
          exact hhx (hprop h (List.mem_cons_self _ _) he.symm)
        exact polishStep_of_ne model hid
    rw [hstep]
    exact ih (fun g hg => hprop g (List.mem_cons_of_mem _ hg))

theorem applyAll_eq (model : HeadlineRec → String) (x : HeadlineRec) :
    ∀ ts : List HeadlineRec, (∀ h ∈ ts, h.HeadlineId = x.HeadlineId → h = x) →
      ts.foldl (fun y h => polishStep model h y) x
        = if x ∈ ts then polishStep model x x else x := by
  intro ts
  induction ts with
  | nil => intro _; simp
  | cons h ts ih =>
    intro hprop
    rw [List.foldl_cons]
    by_cases hhx : h = x
    · subst hhx
      have hxx : polishStep model h h = polishStep model h h := rfl
      rw [if_pos (List.mem_cons_self _ _)]
      exact applyAll_absorb model h ts (fun g hg => hprop g (List.mem_cons_of_mem _ hg))
    · have hid : x.HeadlineId ≠ h.HeadlineId := by
        intro he
        exact hhx (hprop h (List.mem_cons_self _ _) he.symm)
      rw [polishStep_of_ne model hid,
        ih (fun g hg => hprop g (List.mem_cons_of_mem _ hg))]
      by_cases hxts : x ∈ ts
      · rw [if_pos hxts, if_pos (List.mem_cons_of_mem _ hxts)]
      · rw [if_neg hxts, if_neg ?_]
        intro hm
        rcases List.mem_cons.mp hm with hm | hm
        · exact hhx hm.symm
        · exact hxts hm

/-- **C6.** The polish pass runs only on a final run (batch number ≥ 4 or
editorial-timezone hour ≥ 21) and only over the top-16 survivors whose
`OriginalSubverted` is absent; for such a headline, when the cleaned model
reply is non-empty and differs from the current `Headline`, the `Headline`
is replaced and `OriginalSubverted` is set to the previous text; any other
headline — in particular one whose `OriginalSubverted` is present — is
never touched, so a second final run does not re-polish. -/
theorem polish_final_run_invariants (model : HeadlineRec → String) (batch hour : Nat)
    (store : List HeadlineRec) (survivors : List (Nat × String))
    (hnodup : (store.map HeadlineRec.HeadlineId).Nodup) :
    (is_final_run batch hour = true ↔ (4 ≤ batch ∨ 21 ≤ hour))
    ∧ (is_final_run batch hour = false →
        final_polish_step model batch hour store survivors = store)
    ∧ (is_final_run batch hour = true →
        ∀ i, (hi : i < store.length) →
        (store[i].OriginalSubverted ≠ none →
          (final_polish_step model batch hour store survivors)[i]? = some store[i])
        ∧ (store[i].HeadlineId ∉ (survivors.take 16).map Prod.snd →
          (final_polish_step model batch hour store survivors)[i]? = some store[i])
        ∧ (store[i].OriginalSubverted = none →
           store[i].HeadlineId ∈ (survivors.take 16).map Prod.snd →
           (final_polish_step model batch hour store survivors)[i]?
             = some (if clean_polished (model store[i]) ≠ ""
                        ∧ clean_polished (model store[i]) ≠ store[i].Headline
                     then { store[i] with
                            Headline := clean_polished (model store[i]),
                            OriginalSubverted := some store[i].Headline }
                     else store[i]))) := by
  refine ⟨by simp [is_final_run], ?_, ?_⟩
  · intro hfalse
    unfold final_polish_step
    rw [if_neg (by simp [hfalse])]
  · intro hfin i hi
    have hstep : final_polish_step model batch hour store survivors
        = polish_top_headlines model store (survivors.take 16) := by
      unfold final_polish_step
      rw [if_pos hfin]
    have hx : store[i] ∈ store := List.getElem_mem hi
    have hinj : ∀ a ∈ store, ∀ b ∈ store, a.HeadlineId = b.HeadlineId → a = b :=
      List.inj_on_of_nodup_map hnodup
    have hprop : ∀ h ∈ polish_targets store (survivors.take 16),
        h.HeadlineId = store[i].HeadlineId → h = store[i] := by
      intro h hmem he
      exact hinj h (polish_targets_sub hmem).1 store[i] hx he
    have hres : (final_polish_step model batch hour store survivors)[i]?
        = some ((polish_targets store (survivors.take 16)).foldl
            (fun y h => polishStep model h y) store[i]) := by
      rw [hstep]
      unfold polish_top_headlines
      rw [polishFold_getElem? model _ store i, List.getElem?_eq_getElem hi,
        Option.map_some']
    rw [hres, applyAll_eq model store[i] _ hprop]
    refine ⟨?_, ?_, ?_⟩
    · intro hOS
      rw [if_neg]
      intro hmem
      exact hOS (polish_targets_sub hmem).2.1
    · intro hid
      rw [if_neg]
      intro hmem
      exact hid (polish_targets_sub hmem).2.2
    · intro hOS hid
      rw [if_pos ((mem_polish_targets_iff hnodup store[i] hx).mpr ⟨hOS, hid⟩)]
      by_cases hc : clean_polished (model store[i]) ≠ ""
          ∧ clean_polished (model store[i]) ≠ store[i].Headline
      · rw [polishStep_pos model _ _ hc, if_pos (by simp), if_pos hc]
      · rw [polishStep_neg model _ _ hc, if_neg hc]

/-- Concrete headline record used by witnesses. -/
def sampleItem : HeadlineRec :=
  { YearMonthDay := "20240101", HeadlineId := "h1", StoryId := "s1",
    Headline := "Old headline", OriginalHeadline := "Orig",
    OriginalSubverted := none, Angle := "", AngleSetup := "",
    Rank := some 1, CrossDayRank := none, TournamentBatch := some 1,
    Survived := some true }

/-- Witness for C6: an already-polished top-16 survivor is left untouched
by a final run. -/
theorem polish_final_run_invariants_witness :
    (final_polish_step (fun _ => "Better headline") 4 0
        [{ sampleItem with OriginalSubverted := some "Old headline" }] [(1, "h1")])[0]?
      = some { sampleItem with OriginalSubverted := some "Old headline" } :=
  ((polish_final_run_invariants (fun _ => "Better headline") 4 0
    [{ sampleItem with OriginalSubverted := some "Old headline" }]
    [(1, "h1")] (by decide)).2.2 (by decide) 0 (by decide)).1 (by decide)

/-! ## Claim C7: Subvert dedup (subvert.py lines 137-178, 430-438) -/

/-- A DynamoDB stream record as consumed by `subvert`: the event name and
the story fields the worker reads from `NewImage`.  `StoryId` is
`story.get("StoryId", "")` — the empty string when the attribute is
absent. -/
structure StreamRecord where
  eventName : String
  YearMonthDay : String
  StoryId : String
  Title : String
  Description : String
deriving Repr, DecidableEq, Inhabited

/-- Lexicographic strict order on code points, structurally on the
character lists of the two strings. -/
def strLtList : List Char → List Char → Bool
  | [], [] => false
  | [], _ :: _ => true
  | _ :: _, [] => false
  | a :: as, b :: bs =>
    if a.toNat < b.toNat then true
    else if b.toNat < a.toNat then false
    else strLtList as bs

/-- `a ≤ b` on strings in code-point order: the order in which DynamoDB
stores and returns string sort keys (for the ASCII `HeadlineId` values,
code-point order coincides with UTF-8 byte order). -/
def strLe (a b : String) : Bool := !(strLtList b.data a.data)

/-- `do_headlines_exist_for_story` (subvert.py lines 430-438): a query on
partition `YearMonthDay` with `FilterExpression "StoryId = :sid"` and
`Limit=1`.  DynamoDB applies `Limit` BEFORE the filter expression: the
query reads only the first `Limit` items of the partition in sort-key
order (`HeadlineId`, ascending) and only then filters them.  So this
check inspects the single first item of the day, not the whole
partition. -/
def do_headlines_exist_for_story (table : List HeadlineRec)
    (year_month_day story_id : String) : Bool :=
  !(((List.insertionSort (fun a b => strLe a.HeadlineId b.HeadlineId = true)
        (table.filter (fun h => h.YearMonthDay == year_month_day))).take 1).filter
      (fun h => h.StoryId == story_id)).isEmpty

/-- The record filter of `subvert` (lines 142-157): keep INSERT/MODIFY
records whose story has no existing headlines.  The dedup check runs
against the table as it is before any processing starts. -/
def subvert_records_to_process (table : List HeadlineRec)
    (records : List StreamRecord) : List StreamRecord :=
  records.filter (fun r =>
    (r.eventName == "INSERT" || r.eventName == "MODIFY")
    && !(r.StoryId != "" && do_headlines_exist_for_story table r.YearMonthDay r.StoryId))

/-- `subvert(event)` (lines 137-178): every surviving record is processed
(`process_story` → `compute_subverted_titles` → `save_headlines`),
appending its generated headline items — the oracle `gen r` — to the
table; skipped records write nothing. -/
def subvert_process (gen : StreamRecord → List HeadlineRec) (table : List HeadlineRec)
    (records : List StreamRecord) : List HeadlineRec :=
  table ++ ((subvert_records_to_process table records).map gen).flatten

/-- Day `"d"` already holds a headline of a different story `"s2"`, and
its `HeadlineId` `"a"` sorts first in the partition. -/
def cOtherItem : HeadlineRec :=
  { sampleItem with YearMonthDay := "d", HeadlineId := "a", StoryId := "s2" }

/-- The headline already stored for the replayed story `"s1"` on day
`"d"`: its `HeadlineId` `"b"` sorts after `"a"`. -/
def cS1Item : HeadlineRec :=
  { sampleItem with YearMonthDay := "d", HeadlineId := "b", StoryId := "s1" }

/-- A headline regenerated for story `"s1"` when the replayed event is
reprocessed. -/
def cS1Dup : HeadlineRec :=
  { sampleItem with YearMonthDay := "d", HeadlineId := "c", StoryId := "s1" }

/-- The replayed stream record: an INSERT for story `"s1"` on day
`"d"`. -/
def cReplayRec : StreamRecord :=
  { eventName := "INSERT", YearMonthDay := "d", StoryId := "s1",
    Title := "T", Description := "D" }

/-- **C7.** Refuted against the code: the dedup query of
`do_headlines_exist_for_story` passes `Limit=1` together with the
`FilterExpression`, and DynamoDB applies `Limit` before the filter, so
only the first item of the day partition (in `HeadlineId` order) is
inspected.  Here a headline of story `"s1"` is already stored on day
`"d"`, but the first item of the partition belongs to story `"s2"`: the
guard returns `false`, the replayed event is reprocessed, and the worker
appends a duplicate headline set for `("d", "s1")`. -/
theorem subvert_replay_duplicates_counterexample :
    (cS1Item ∈ [cOtherItem, cS1Item] ∧ cS1Item.YearMonthDay = "d"
      ∧ cS1Item.StoryId = "s1" ∧ cReplayRec.YearMonthDay = "d"
      ∧ cReplayRec.StoryId = "s1")
    ∧ do_headlines_exist_for_story [cOtherItem, cS1Item] "d" "s1" = false
    ∧ subvert_process (fun _ => [cS1Dup]) [cOtherItem, cS1Item] [cReplayRec]
        = [cOtherItem, cS1Item, cS1Dup] := by
  refine ⟨by decide, by decide, by decide⟩

/-! ## Claim C9: Story Ingestor idempotence
(fetch.py lines 120-157; stories_repository.py lines 15-62) -/

/-- A stored Story item (the fields relevant to the dedup guard). -/
structure StoryRec where
  YearMonthDay : String
  Title : String
  StoryId : String
  PublishedAt : String
  Description : String
  ImageUrl : String
deriving Repr, DecidableEq, Inhabited

/-- An upstream newsdata.io story as consumed by `save_story`. -/
structure RawStory where
  title : String
  pubDate : String
  description : String
  image_url : Option String
deriving Repr, DecidableEq, Inhabited

/-- A story with this `(YearMonthDay, Title)` exists in the store. -/
def present (store : List StoryRec) (ymd title : String) : Bool :=
  store.any (fun s => s.YearMonthDay == ymd && s.Title == title)

/-- Modelled from the spec: the Stories table's conditional put.  The table
definition (key schema) is repository infrastructure that is not under
`src/`.  Per the spec — "Writes with an existence guard on
`(YearMonthDay, Title)`; a conflict is a silent skip, not an error" and the
Story invariant "uniqueness on `(YearMonthDay, Title)`" — the
`ConditionExpression "attribute_not_exists(YearMonthDay) AND
attribute_not_exists(Title)"` fails with `ConditionalCheckFailedException`
exactly when an item with the same `(YearMonthDay, Title)` already exists
(that item then has both attributes, falsifying the condition). -/
def put_story_conditional (store : List StoryRec) (it : StoryRec) :
    Except Unit (List StoryRec) :=
  if present store it.YearMonthDay it.Title then Except.error ()
  else Except.ok (store ++ [it])

/-- The Story item built by `save_story`'s `put_item` argument. -/
def story_item (dayOf : String → String) (story : RawStory) (randId img : String) :
    StoryRec :=
  { YearMonthDay := dayOf story.pubDate, Title := story.title,
    StoryId := randId, PublishedAt := story.pubDate,
    Description := story.description, ImageUrl := img }

/-- `save_story(story, fetch_category)` (fetch.py lines 120-157, identical
in stories_repository.py): reject stories without an image; conditional
put; a `ConditionalCheckFailedException` is swallowed with a log line and
`False` is returned.  `randId` is the 5-char random `StoryId` drawn for
this call and `dayOf` models `fromisoformat ∘ strftime('%Y%m%d')`. -/
def save_story (dayOf : String → String) (store : List StoryRec) (story : RawStory)
    (randId : String) : Bool × List StoryRec :=
  match story.image_url with
  | none => (false, store)
  | some img =>
    match put_story_conditional store (story_item dayOf story randId img) with
    | Except.ok store2 => (true, store2)
    | Except.error _ => (false, store)

/-- One ingest pass over a fixed upstream story list, threading the store
and a stream of fresh random ids. -/
def save_run (dayOf : String → String) (ids : Nat → String) :
    List RawStory → List StoryRec → Nat → List StoryRec
  | [], store, _ => store
  | st :: rest, store, k =>
    save_run dayOf ids rest (save_story dayOf store st (ids k)).2 (k + 1)

theorem put_story_conditional_pos {store : List StoryRec} {it : StoryRec}
    (hp : present store it.YearMonthDay it.Title = true) :
    put_story_conditional store it = Except.error () := by
  unfold put_story_conditional
  rw [if_pos hp]

theorem put_story_conditional_neg {store : List StoryRec} {it : StoryRec}
    (hp : ¬present store it.YearMonthDay it.Title = true) :
    put_story_conditional store it = Except.ok (store ++ [it]) := by
  unfold put_story_conditional
  rw [if_neg hp]

theorem put_story_item_pos (dayOf : String → String) (store : List StoryRec)
    (story : RawStory) (randId img : String)
    (hp : present store (dayOf story.pubDate) story.title = true) :
    put_story_conditional store (story_item dayOf story randId img) = Except.error () :=
  put_story_conditional_pos hp

theorem put_story_item_neg (dayOf : String → String) (store : List StoryRec)
    (story : RawStory) (randId img : String)
    (hp : ¬present store (dayOf story.pubDate) story.title = true) :
    put_story_conditional store (story_item dayOf story randId img)
      = Except.ok (store ++ [story_item dayOf story randId img]) :=
  put_story_conditional_neg hp

theorem save_story_present_skip (dayOf : String → String) (store : List StoryRec)
    (story : RawStory) (randId : String)
    (hp : present store (dayOf story.pubDate) story.title = true) :
    save_story dayOf store story randId = (false, store) := by
  rcases himage : story.image_url with _ | img
  · unfold save_story; rw [himage]
  · unfold save_story
    rw [himage]
    show (match put_story_conditional store (story_item dayOf story randId img) with
      | Except.ok store2 => (true, store2)
      | Except.error _ => (false, store)) = (false, store)
    rw [put_story_item_pos dayOf store story randId img hp]

theorem present_save_story_mono (dayOf : String → String) (store : List StoryRec)
    (story : RawStory) (randId : String) {y t : String}
    (hp : present store y t = true) :
    present (save_story dayOf store story randId).2 y t = true := by
  rcases himage : story.image_url with _ | img
  · unfold save_story; rw [himage]; exact hp
  · unfold save_story
    rw [himage]
    show present ((match put_story_conditional store (story_item dayOf story randId img) with
      | Except.ok store2 => (true, store2)
      | Except.error _ => (false, store)) : Bool × List StoryRec).2 y t = true
    by_cases hc : present store (dayOf story.pubDate) story.title = true
    · rw [put_story_item_pos dayOf store story randId img hc]; exact hp
    · rw [put_story_item_neg dayOf store story randId img hc]
      show present (store ++ [story_item dayOf story randId img]) y t = true
      unfold present at hp ⊢
      rw [List.any_append, hp]
      rfl

theorem present_save_run_mono (dayOf : String → String) (ids : Nat → String) :
    ∀ (stories : List RawStory) (store : List StoryRec) (k : Nat) {y t : String},
      present store y t = true → present (save_run dayOf ids stories store k) y t = true := by
  intro stories
  induction stories with
  | nil => intro store k y t hp; exact hp
  | cons st rest ih =>
    intro store k y t hp
    exact ih _ _ (present_save_story_mono dayOf store st (ids k) hp)

theorem save_run_saves (dayOf : String → String) (ids : Nat → String) :
    ∀ (stories : List RawStory) (store : List StoryRec) (k : Nat),
      ∀ s ∈ stories, s.image_url ≠ none →
        present (save_run dayOf ids stories store k) (dayOf s.pubDate) s.title = true := by
  intro stories
  induction stories with
  | nil => intro store k s hs; exact absurd hs (List.not_mem_nil s)
  | cons st rest ih =>
    intro store k s hs himg
    rcases List.mem_cons.mp hs with h | h
    · subst h
      show present (save_run dayOf ids rest (save_story dayOf store s (ids k)).2 (k + 1))
          (dayOf s.pubDate) s.title = true
      apply present_save_run_mono
      rcases himage : s.image_url with _ | img
      · exact absurd himage himg
      · unfold save_story
        rw [himage]
        show present ((match put_story_conditional store (story_item dayOf s (ids k) img) with
          | Except.ok store2 => (true, store2)
          | Except.error _ => (false, store)) : Bool × List StoryRec).2 (dayOf s.pubDate)
            s.title = true
        by_cases hc : present store (dayOf s.pubDate) s.title = true
        · rw [put_story_item_pos dayOf store s (ids k) img hc]; exact hc
        · rw [put_story_item_neg dayOf store s (ids k) img hc]
          show present (store ++ [story_item dayOf s (ids k) img]) (dayOf s.pubDate)
              s.title = true
          unfold present
          rw [List.any_append]
          have h1 : [story_item dayOf s (ids k) img].any
              (fun x => x.YearMonthDay == dayOf s.pubDate && x.Title == s.title) = true := by
            simp [story_item]
          rw [h1]
          simp
    · exact ih _ _ s h himg

theorem save_run_noop (dayOf : String → String) (ids : Nat → String) :
    ∀ (stories : List RawStory) (store : List StoryRec) (k : Nat),
      (∀ s ∈ stories, s.image_url ≠ none →
        present store (dayOf s.pubDate) s.title = true) →
      save_run dayOf ids stories store k = store := by
  intro stories
  induction stories with
  | nil => intro store k _; rfl
  | cons st rest ih =>
    intro store k hall
    have hst : (save_story dayOf store st (ids k)).2 = store := by
      rcases himage : st.image_url with _ | img
      · unfold save_story; rw [himage]
      · have hp := hall st (List.mem_cons_self _ _) (by rw [himage]; simp)
        rw [save_story_present_skip dayOf store st (ids k) hp]
    show save_run dayOf ids rest (save_story dayOf store st (ids k)).2 (k + 1) = store
    rw [hst]
    exact ih store (k + 1) (fun s hs himg => hall s (List.mem_cons_of_mem _ hs) himg)

/-- **C9.** Running the Story Ingestor twice with identical upstream
responses saves each story exactly once: the write is guarded by an
existence condition on `(YearMonthDay, Title)`, a conflict is a silent skip
(`save_story` returns `False` and leaves the store unchanged), and the
second pass over the same stories writes nothing. -/
theorem save_story_idempotent (dayOf : String → String) (ids1 ids2 : Nat → String)
    (stories : List RawStory) (store : List StoryRec) (k1 k2 : Nat)
    (st : RawStory) (randId : String) :
    (st.image_url = none → save_story dayOf store st randId = (false, store))
    ∧ (present store (dayOf st.pubDate) st.title = true →
        save_story dayOf store st randId = (false, store))
    ∧ (save_run dayOf ids2 stories (save_run dayOf ids1 stories store k1) k2
        = save_run dayOf ids1 stories store k1) := by
  refine ⟨?_, save_story_present_skip dayOf store st randId, ?_⟩
  · intro himage
    unfold save_story
    rw [himage]
  · exact save_run_noop dayOf ids2 stories _ k2
      (fun s hs himg => save_run_saves dayOf ids1 stories store k1 s hs himg)

/-- Concrete story records used by the C9 witness. -/
def sampleStoryRec : StoryRec :=
  { YearMonthDay := "20240101", Title := "T", StoryId := "aaaaa",
    PublishedAt := "20240101", Description := "", ImageUrl := "img" }

def sampleRawStory : RawStory :=
  { title := "T", pubDate := "20240101", description := "", image_url := some "img" }

/-- Witness for C9: a story already present is skipped with `False`. -/
theorem save_story_idempotent_witness :
    save_story (fun d => d) [sampleStoryRec] sampleRawStory "bbbbb"
      = (false, [sampleStoryRec]) :=
  (save_story_idempotent (fun d => d) (fun _ => "aaaaa") (fun _ => "bbbbb") []
    [sampleStoryRec] 0 0 sampleRawStory "bbbbb").2.1 (by decide)

/-! ## Claim C10: requested-day filler (get.py lines 29-52) -/

/-- The day-scoped headline gathering of `get` for an explicitly requested
day (get.py lines 47-52): query the requested day; if it yields fewer than
4 headlines, extend the list with the headlines of the day before the
**current** New York date — `get_day_key(datetime.now(ZoneInfo(
'America/New_York')) - timedelta(days=1))` — not the day before the
requested day.  `now` is the current New York date as an abstract day
index, `dayKey` its `YYYYMMDD` rendering, `store` the per-day query. -/
def day_view_headlines (store : String → List HeadlineRec) (dayKey : Nat → String)
    (now : Nat) (requested : String) : List HeadlineRec :=
  if (store requested).length < 4 then
    store requested ++ store (dayKey (now - 1))
  else store requested

/-- **C10.** When a specific day is requested and yields fewer than 4
headlines, the filler headlines come from the day before the current
New York date, not the day before the requested day: the filler suffix is
`store (dayKey (now - 1))` and is the same for every requested day that is
short, hence unrelated to the requested day. -/
theorem filler_day_is_current_yesterday (store : String → List HeadlineRec)
    (dayKey : Nat → String) (now : Nat) (requested : String)
    (hshort : (store requested).length < 4) :
    day_view_headlines store dayKey now requested
      = store requested ++ store (dayKey (now - 1))
    ∧ (∀ requested2, (store requested2).length < 4 →
        (day_view_headlines store dayKey now requested).drop (store requested).length
          = (day_view_headlines store dayKey now requested2).drop
              (store requested2).length) := by
  constructor
  · unfold day_view_headlines
    rw [if_pos hshort]
  · intro r2 h2
    unfold day_view_headlines
    rw [if_pos hshort, if_pos h2, List.drop_left, List.drop_left]

/-- Witness for C10: a one-headline requested day is padded from the
current date's previous day. -/
theorem filler_day_is_current_yesterday_witness :
    day_view_headlines
      (fun d => if d = "20240105" then [sampleItem] else [sampleItem, sampleItem])
      (fun _ => "20240301") 5 "20240105"
    = [sampleItem] ++ [sampleItem, sampleItem] :=
  (filler_day_is_current_yesterday
    (fun d => if d = "20240105" then [sampleItem] else [sampleItem, sampleItem])
    (fun _ => "20240301") 5 "20240105" (by decide)).1

/-! ## Claim C8: reader selection (get.py lines 109-196) -/

/-- Python truthiness of `h.get(rank_field) or (max_rank + 1)` (get.py
lines 129-130): `None` and `0` fall back to `max_rank + 1`. -/
def get_rank (rankOf : HeadlineRec → Option Nat) (max_rank : Nat) (h : HeadlineRec) : Nat :=
  match rankOf h with
  | none => max_rank + 1
  | some r => if r = 0 then max_rank + 1 else r

/-- `max((h.get(rank_field) or 0 for h in headlines), default=0)`
(get.py line 127). -/
def max_rank_of (rankOf : HeadlineRec → Option Nat) (headlines : List HeadlineRec) : Nat :=
  (headlines.map (fun h => (rankOf h).getD 0)).foldr max 0

/-- `sorted(headlines, key=get_rank)` (get.py line 133): a stable sort by
the effective rank. -/
def sorted_by_rank (rankOf : HeadlineRec → Option Nat)
    (headlines : List HeadlineRec) : List HeadlineRec :=
  List.insertionSort
    (fun a b => get_rank rankOf (max_rank_of rankOf headlines) a
      ≤ get_rank rankOf (max_rank_of rankOf headlines) b) headlines

/-- Case-insensitive substring test `query_lower in text.lower()`; for a
non-empty pattern, `splitOn` yields at least two parts iff the pattern
occurs.  (The claim does not depend on the predicate's semantics.) -/
def strContainsLower (text q : String) : Bool :=
  2 ≤ ((text.toLower).splitOn q).length

/-- The requested-headline slot (get.py lines 139-144): if a slug is given,
force the first matching headline into slot 0 and claim its story. -/
def slot_requested (sorted_h : List HeadlineRec) (requested : String) :
    List HeadlineRec × List String :=
  if requested ≠ "" then
    match sorted_h.find? (fun h => h.HeadlineId == requested) with
    | some h => ([h], [h.StoryId])
    | none => ([], [])
  else ([], [])

/-- The highest-ranked-unseen slot (get.py lines 146-153): when no headline
was requested and there is no search query, slot 0 is the first headline
not in the seen set whose story is unclaimed. -/
def slot_unseen (sorted_h : List HeadlineRec) (search_query : String)
    (seen_as_top : List String) (acc : List HeadlineRec × List String) :
    List HeadlineRec × List String :=
  if acc.1.isEmpty ∧ search_query = "" then
    match sorted_h.find? (fun h =>
        decide (h.HeadlineId ∉ seen_as_top) && decide (h.StoryId ∉ acc.2)) with
    | some h => (acc.1 ++ [h], h.StoryId :: acc.2)
    | none => acc
  else acc

/-- The shared shape of the search-matching loop (get.py lines 167-172) and
the final fill loop (lines 189-194): walk the list, stop once 4 results are
collected, and add an entry only when its `StoryId` is not yet picked. -/
def fillLoop : List HeadlineRec → List HeadlineRec × List String →
    List HeadlineRec × List String
  | [], acc => acc
  | h :: t, (res, picked) =>
    if res.length ≥ 4 then (res, picked)
    else if h.StoryId ∈ picked then fillLoop t (res, picked)
    else fillLoop t (res ++ [h], h.StoryId :: picked)

/-- The search phase (get.py lines 155-172): filter to unclaimed stories
whose headline or original headline contains the query, shuffle, and take
greedily. -/
def searchPhase (sorted_h : List HeadlineRec) (search_query : String)
    (shufMatching : List HeadlineRec → List HeadlineRec)
    (acc : List HeadlineRec × List String) : List HeadlineRec × List String :=
  if search_query ≠ "" then
    fillLoop (shufMatching (sorted_h.filter (fun h => decide (h.StoryId ∉ acc.2)
      && (strContainsLower h.Headline search_query.toLower
          || strContainsLower h.OriginalHeadline search_query.toLower)))) acc
  else acc

/-- The candidate pool for one pool size (get.py lines 179-182): the
unpicked stories among the best `ps` sorted headlines. -/
def poolOf (sorted_h : List HeadlineRec) (picked : List String) (ps : Nat) :
    List HeadlineRec :=
  (sorted_h.take ps).filter (fun h => decide (h.StoryId ∉ picked))

/-- `random.choice(pool)` through the index oracle `chooseIdx`, reduced mod
the pool size so every oracle denotes a valid member. -/
def pickOf (chooseIdx : List HeadlineRec → Nat) (pool : List HeadlineRec) : HeadlineRec :=
  pool.getD (chooseIdx pool % pool.length) default

/-- The expanding-pool loop (get.py lines 174-186): for each pool size,
filter the sorted prefix to unpicked stories and pick one. -/
def poolPhase (sorted_h : List HeadlineRec) (chooseIdx : List HeadlineRec → Nat) :
    List Nat → List HeadlineRec × List String → List HeadlineRec × List String
  | [], acc => acc
  | ps :: rest, (res, picked) =>
    if res.length ≥ 4 then (res, picked)
    else if (poolOf sorted_h picked ps).isEmpty then
      poolPhase sorted_h chooseIdx rest (res, picked)
    else
      poolPhase sorted_h chooseIdx rest
        (res ++ [pickOf chooseIdx (poolOf sorted_h picked ps)],
         (pickOf chooseIdx (poolOf sorted_h picked ps)).StoryId :: picked)

/-- `select_headlines` (get.py lines 109-196).  `rankOf` is
`h.get(rank_field)`; `shufMatching` models `random.shuffle(matching)` and
`chooseIdx` models `random.choice(pool)`. -/
def select_headlines (headlines : List HeadlineRec)
    (requested_headline_id search_query : String)
    (rankOf : HeadlineRec → Option Nat) (seen_as_top : List String)
    (shufMatching : List HeadlineRec → List HeadlineRec)
    (chooseIdx : List HeadlineRec → Nat) : List HeadlineRec :=
  if headlines.isEmpty then []
  else
    (fillLoop (sorted_by_rank rankOf headlines)
      (poolPhase (sorted_by_rank rankOf headlines) chooseIdx [16, 16, 32, 64]
        (searchPhase (sorted_by_rank rankOf headlines) search_query shufMatching
          (slot_unseen (sorted_by_rank rankOf headlines) search_query seen_as_top
            (slot_requested (sorted_by_rank rankOf headlines)
              requested_headline_id))))).1.take 4

/-- The invariant of the selection loops: collected `StoryId`s are pairwise
distinct and all recorded in the picked set. -/
def selInv (acc : List HeadlineRec × List String) : Prop :=
  (acc.1.map (fun h => h.StoryId)).Nodup
  ∧ ∀ s ∈ acc.1.map (fun h => h.StoryId), s ∈ acc.2

theorem selInv_add {res : List HeadlineRec} {picked : List String} {h : HeadlineRec}
    (hinv : selInv (res, picked)) (hnp : h.StoryId ∉ picked) :
    selInv (res ++ [h], h.StoryId :: picked) := by
  obtain ⟨hnd, hsub⟩ := hinv
  constructor
  · rw [List.map_append]
    refine List.Nodup.append hnd (by simp) ?_
    intro a ha hb
    simp only [List.map_cons, List.map_nil, List.mem_singleton] at hb
    subst hb
    exact hnp (hsub _ ha)
  · intro s hs
    rw [List.map_append] at hs
    rcases List.mem_append.mp hs with hs | hs
    · exact List.mem_cons_of_mem _ (hsub s hs)
    · simp only [List.map_cons, List.map_nil, List.mem_singleton] at hs
      subst hs
      exact List.mem_cons_self _ _

theorem slot_requested_inv (sorted_h : List HeadlineRec) (requested : String) :
    selInv (slot_requested sorted_h requested) := by
  unfold slot_requested
  by_cases hreq : requested ≠ ""
  · rw [if_pos hreq]
    rcases hfind : sorted_h.find? (fun h => h.HeadlineId == requested) with _ | h
    · rw [hfind]
      show selInv ([], [])
      exact ⟨by simp, by simp⟩
    · rw [hfind]
      show selInv ([h], [h.StoryId])
      exact ⟨by simp, by simp⟩
  · rw [if_neg hreq]
    exact ⟨by simp, by simp⟩

theorem slot_unseen_inv (sorted_h : List HeadlineRec) (search_query : String)
    (seen_as_top : List String) (acc : List HeadlineRec × List String)
    (hinv : selInv acc) : selInv (slot_unseen sorted_h search_query seen_as_top acc) := by
  unfold slot_unseen
  by_cases hq : acc.1.isEmpty ∧ search_query = ""
  · rw [if_pos hq]
    rcases hfind : sorted_h.find? (fun h =>
        decide (h.HeadlineId ∉ seen_as_top) && decide (h.StoryId ∉ acc.2)) with _ | h
    · rw [hfind]
      exact hinv
    · rw [hfind]
      have hcond := List.find?_some hfind
      have hnp : h.StoryId ∉ acc.2 := by
        have h2 := (Bool.and_eq_true _ _).mp hcond
        simpa using h2.2
      show selInv (acc.1 ++ [h], h.StoryId :: acc.2)
      obtain ⟨x2, y2⟩ := acc
      exact selInv_add hinv hnp
  · rw [if_neg hq]
    exact hinv

theorem fillLoop_inv : ∀ (l : List HeadlineRec) (acc : List HeadlineRec × List String),
    selInv acc → selInv (fillLoop l acc) := by
  intro l
  induction l with
  | nil => intro acc hinv; exact hinv
  | cons h t ih =>
    intro acc hinv
    obtain ⟨res, picked⟩ := acc
    show selInv (if res.length ≥ 4 then (res, picked)
      else if h.StoryId ∈ picked then fillLoop t (res, picked)
      else fillLoop t (res ++ [h], h.StoryId :: picked))
    by_cases h4 : res.length ≥ 4
    · rw [if_pos h4]; exact hinv
    · rw [if_neg h4]
      by_cases hp : h.StoryId ∈ picked
      · rw [if_pos hp]; exact ih _ hinv
      · rw [if_neg hp]; exact ih _ (selInv_add hinv hp)

theorem searchPhase_inv (sorted_h : List HeadlineRec) (search_query : String)
    (shufMatching : List HeadlineRec → List HeadlineRec)
    (acc : List HeadlineRec × List String) (hinv : selInv acc) :
    selInv (searchPhase sorted_h search_query shufMatching acc) := by
  unfold searchPhase
  by_cases hq : search_query ≠ ""
  · rw [if_pos hq]
    exact fillLoop_inv _ _ hinv
  · rw [if_neg hq]
    exact hinv

theorem poolPhase_inv (sorted_h : List HeadlineRec) (chooseIdx : List HeadlineRec → Nat) :
    ∀ (sizes : List Nat) (acc : List HeadlineRec × List String),
      selInv acc → selInv (poolPhase sorted_h chooseIdx sizes acc) := by
  intro sizes
  induction sizes with
  | nil => intro acc hinv; exact hinv
  | cons ps rest ih =>
    intro acc hinv
    obtain ⟨res, picked⟩ := acc
    show selInv (if res.length ≥ 4 then (res, picked)
      else if (poolOf sorted_h picked ps).isEmpty then
        poolPhase sorted_h chooseIdx rest (res, picked)
      else
        poolPhase sorted_h chooseIdx rest
          (res ++ [pickOf chooseIdx (poolOf sorted_h picked ps)],
           (pickOf chooseIdx (poolOf sorted_h picked ps)).StoryId :: picked))
    by_cases h4 : res.length ≥ 4
    · rw [if_pos h4]; exact hinv
    · rw [if_neg h4]
      by_cases he : (poolOf sorted_h picked ps).isEmpty
      · rw [if_pos he]; exact ih _ hinv
      · rw [if_neg he]
        have hlen : 0 < (poolOf sorted_h picked ps).length := by
          cases hc : poolOf sorted_h picked ps with
          | nil => rw [hc] at he; exact absurd rfl he
          | cons a t => exact Nat.succ_pos _
        have hmem : pickOf chooseIdx (poolOf sorted_h picked ps) ∈ poolOf sorted_h picked ps := by
          unfold pickOf
          rw [List.getD_eq_getElem _ default (Nat.mod_lt _ hlen)]
          exact List.getElem_mem _
        have hnp : (pickOf chooseIdx (poolOf sorted_h picked ps)).StoryId ∉ picked := by
          have h2 := List.of_mem_filter hmem
          simpa using h2
        exact ih _ (selInv_add hinv hnp)

/-- **C8.** For every input headline list, requested headline slug, search
query, seen set — and any resolution of the randomness — the reader's
selection returns at most 4 headlines, and the `StoryId` values of the
returned headlines are pairwise distinct. -/
theorem select_headlines_distinct_bounded (headlines : List HeadlineRec)
    (requested_headline_id search_query : String)
    (rankOf : HeadlineRec → Option Nat) (seen_as_top : List String)
    (shufMatching : List HeadlineRec → List HeadlineRec)
    (chooseIdx : List HeadlineRec → Nat) :
    (select_headlines headlines requested_headline_id search_query rankOf seen_as_top
        shufMatching chooseIdx).length ≤ 4
    ∧ ((select_headlines headlines requested_headline_id search_query rankOf seen_as_top
        shufMatching chooseIdx).map (fun h => h.StoryId)).Nodup := by
  unfold select_headlines
  by_cases hemp : headlines.isEmpty
  · rw [if_pos hemp]
    exact ⟨by simp, by simp⟩
  · rw [if_neg hemp]
    have hinv : selInv (fillLoop (sorted_by_rank rankOf headlines)
        (poolPhase (sorted_by_rank rankOf headlines) chooseIdx [16, 16, 32, 64]
          (searchPhase (sorted_by_rank rankOf headlines) search_query shufMatching
            (slot_unseen (sorted_by_rank rankOf headlines) search_query seen_as_top
              (slot_requested (sorted_by_rank rankOf headlines)
                requested_headline_id))))) :=
      fillLoop_inv _ _ (poolPhase_inv _ _ _ _ (searchPhase_inv _ _ _ _
        (slot_unseen_inv _ _ _ _ (slot_requested_inv _ _))))
    constructor
    · exact List.length_take_le _ _
    · rw [List.map_take]
      exact List.Nodup.sublist (List.take_sublist _ _) hinv.1

/-- Witness for C8 on a concrete three-headline day. -/
theorem select_headlines_distinct_bounded_witness :
    (select_headlines [sampleItem] "" "" (fun h => h.Rank) [] id (fun _ => 0)).length ≤ 4 :=
  (select_headlines_distinct_bounded [sampleItem] "" "" (fun h => h.Rank) [] id
    (fun _ => 0)).1

/-! ## Claim C4: rank_group response parsing (tournament.py lines 353-432)

The group is a list of headline ids (`Nat`); labels are `chr(ord('A')+i)`.
The two `random.shuffle` sites are the parameters `shufUnmentioned` (line
425, tail of unmentioned members) and `shufAll` (line 430, whole group on
an unparseable response). -/

/-- The candidate letters of one response line (lines 401-402): split on
commas, strip and uppercase each piece, keep single characters between
`'A'` and `valid_max`. -/
def lineCandidates (vmax : Char) (line : String) : List Char :=
  (line.splitOn ",").filterMap (fun s =>
    match (s.trim.toUpper).toList with
    | [c] => if 'A' ≤ c ∧ c ≤ vmax then some c else none
    | _ => none)

/-- The line scan (lines 397-411): the first line carrying at least
`len(group) // 2` candidate letters becomes the ranking line (`valid`),
later lines the explanation; while `valid` is still empty the scan keeps
looking. -/
def scan_lines (thr : Nat) (vmax : Char) :
    List String → List Char × List String → List Char × List String
  | [], acc => acc
  | line :: rest, acc =>
    if thr ≤ (lineCandidates vmax line).length ∧ acc.1 = [] then
      scan_lines thr vmax rest (lineCandidates vmax line, rest)
    else
      scan_lines thr vmax rest acc

/-- `valid` for a whole response: `response_text.strip().split('\n')`
scanned with threshold `len(group) // 2` and
`valid_max = chr(ord('A') + len(group) - 1)`. -/
def parse_valid (group : List Nat) (response_text : String) : List Char :=
  (scan_lines (group.length / 2) (Char.ofNat (64 + group.length))
    (response_text.trim.splitOn "\n") ([], [])).1

/-- The ordered-loop dedup (lines 416-421): keep the first occurrence of
each letter, tracking the `seen` set. -/
def dedupSeen (seen : List Char) : List Char → List Char
  | [] => []
  | c :: cs => if c ∈ seen then dedupSeen seen cs else c :: dedupSeen (c :: seen) cs

/-- The members mentioned on the ranking line, in line order (lines
414-421): `label_to_headline[letter]` for each fresh letter. -/
def mentionedOf (group : List Nat) (valid : List Char) : List Nat :=
  (dedupSeen [] valid).filterMap (fun c => group[c.toNat - 65]?)

/-- The unmentioned members (line 423):
`[h for i, h in enumerate(group) if chr(ord('A')+i) not in seen]`
(the final `seen` holds exactly the letters of `valid`). -/
def unmentionedOf (valid : List Char) : Nat → List Nat → List Nat
  | _, [] => []
  | k, h :: t =>
    if Char.ofNat (65 + k) ∈ valid then unmentionedOf valid (k + 1) t
    else h :: unmentionedOf valid (k + 1) t

/-- `ordered` after the tail append (lines 423-426): mentioned members
first, then the shuffled unmentioned members (nothing is appended when all
members were mentioned). -/
def ordered_of (shufUnmentioned : List Nat → List Nat) (group : List Nat)
    (valid : List Char) : List Nat :=
  if (unmentionedOf valid 0 group).isEmpty then mentionedOf group valid
  else mentionedOf group valid ++ shufUnmentioned (unmentionedOf valid 0 group)

/-- `rank_group` (lines 353-432), response parsing and ordering: an
unparseable response (no valid ranking line) shuffles the whole group
(lines 428-430). -/
def rank_group (shufUnmentioned shufAll : List Nat → List Nat) (group : List Nat)
    (response_text : String) : List Nat :=
  if (parse_valid group response_text).isEmpty then
    shufAll (ordered_of shufUnmentioned group (parse_valid group response_text))
  else ordered_of shufUnmentioned group (parse_valid group response_text)

/-! Character arithmetic facts for the label encoding. -/

theorem char_toNat_ofNat {m : Nat} (h : m < 55296) : (Char.ofNat m).toNat = m := by
  have hv : m.isValidChar := Or.inl h
  rw [Char.ofNat, dif_pos hv]
  rfl

theorem char_le_iff {a b : Char} : a ≤ b ↔ a.toNat ≤ b.toNat := Iff.rfl

theorem char_toNat_inj {a b : Char} (h : a.toNat = b.toNat) : a = b :=
  Char.ext (UInt32.toNat.inj h)

theorem lineCandidates_range (vmax : Char) (line : String) :
    ∀ c ∈ lineCandidates vmax line, 'A' ≤ c ∧ c ≤ vmax := by
  intro c hc
  obtain ⟨s, _, heq⟩ := List.mem_filterMap.mp hc
  rcases ht : (s.trim.toUpper).toList with _ | ⟨c1, rest⟩
  · rw [ht] at heq; exact absurd heq (by simp)
  · rcases rest with _ | ⟨c2, rest2⟩
    · rw [ht] at heq
      by_cases hr : 'A' ≤ c1 ∧ c1 ≤ vmax
      · have heq2 : (if 'A' ≤ c1 ∧ c1 ≤ vmax then some c1 else none) = some c := heq
        rw [if_pos hr] at heq2
        rwa [← Option.some_inj.mp heq2]
      · have heq2 : (if 'A' ≤ c1 ∧ c1 ≤ vmax then some c1 else none) = some c := heq
        rw [if_neg hr] at heq2
        exact absurd heq2 (by simp)
    · rw [ht] at heq; exact absurd heq (by simp)

theorem scan_lines_range (thr : Nat) (vmax : Char) :
    ∀ (lines : List String) (acc : List Char × List String),
      (∀ c ∈ acc.1, 'A' ≤ c ∧ c ≤ vmax) →
      ∀ c ∈ (scan_lines thr vmax lines acc).1, 'A' ≤ c ∧ c ≤ vmax := by
  intro lines
  induction lines with
  | nil => intro acc hacc; exact hacc
  | cons line rest ih =>
    intro acc hacc
    show ∀ c ∈ (if thr ≤ (lineCandidates vmax line).length ∧ acc.1 = [] then
        scan_lines thr vmax rest (lineCandidates vmax line, rest)
      else scan_lines thr vmax rest acc).1, 'A' ≤ c ∧ c ≤ vmax
    by_cases hcond : thr ≤ (lineCandidates vmax line).length ∧ acc.1 = []
    · rw [if_pos hcond]
      exact ih _ (lineCandidates_range vmax line)
    · rw [if_neg hcond]
      exact ih _ hacc

theorem parse_valid_range (group : List Nat) (response_text : String) :
    ∀ c ∈ parse_valid group response_text,
      'A' ≤ c ∧ c ≤ Char.ofNat (64 + group.length) :=
  scan_lines_range _ _ _ ([], []) (by intro c hc; exact absurd hc (List.not_mem_nil c))

theorem dedupSeen_mem :
    ∀ (l : List Char) (seen : List Char) (c : Char),
      c ∈ dedupSeen seen l ↔ (c ∈ l ∧ c ∉ seen) := by
  intro l
  induction l with
  | nil => intro seen c; simp [dedupSeen]
  | cons c1 cs ih =>
    intro seen c
    show c ∈ (if c1 ∈ seen then dedupSeen seen cs else c1 :: dedupSeen (c1 :: seen) cs)
      ↔ (c ∈ c1 :: cs ∧ c ∉ seen)
    by_cases hc1 : c1 ∈ seen
    · rw [if_pos hc1, ih]
      simp only [List.mem_cons]
      constructor
      · intro ⟨h1, h2⟩
        exact ⟨Or.inr h1, h2⟩
      · intro ⟨h1, h2⟩
        rcases h1 with h1 | h1
        · subst h1; exact absurd hc1 h2
        · exact ⟨h1, h2⟩
    · rw [if_neg hc1]
      simp only [List.mem_cons, ih (c1 :: seen) c]
      constructor
      · intro h
        rcases h with h | ⟨h1, h2⟩
        · subst h; exact ⟨Or.inl rfl, hc1⟩
        · exact ⟨Or.inr h1, fun hs => h2 (Or.inr hs)⟩
      · intro ⟨h1, h2⟩
        by_cases hcc : c = c1
        · exact Or.inl hcc
        · rcases h1 with h1 | h1
          · exact absurd h1 hcc
          · refine Or.inr ⟨h1, ?_⟩
            intro hs
            rcases hs with hs | hs
            · exact hcc hs
            · exact h2 hs

theorem dedupSeen_nodup :
    ∀ (l : List Char) (seen : List Char), (dedupSeen seen l).Nodup := by
  intro l
  induction l with
  | nil => intro seen; simp [dedupSeen]
  | cons c1 cs ih =>
    intro seen
    show (if c1 ∈ seen then dedupSeen seen cs else c1 :: dedupSeen (c1 :: seen) cs).Nodup
    by_cases hc1 : c1 ∈ seen
    · rw [if_pos hc1]; exact ih seen
    · rw [if_neg hc1]
      rw [List.nodup_cons]
      refine ⟨?_, ih (c1 :: seen)⟩
      intro hmem
      exact ((dedupSeen_mem cs (c1 :: seen) c1).mp hmem).2 (List.mem_cons_self _ _)

/-- With no valid letters, every member is unmentioned. -/
theorem unmentionedOf_nil : ∀ (g : List Nat) (k : Nat), unmentionedOf [] k g = g := by
  intro g
  induction g with
  | nil => intro k; rfl
  | cons h t ih =>
    intro k
    show (if Char.ofNat (65 + k) ∈ ([] : List Char) then unmentionedOf [] (k + 1) t
      else h :: unmentionedOf [] (k + 1) t) = h :: t
    rw [if_neg (List.not_mem_nil _), ih]

/-- A letter strictly below every remaining label does not affect the
unmentioned computation. -/
theorem unmentionedOf_cons_of_lt (c : Char) :
    ∀ (t : List Nat) (k : Nat) (vs : List Char), c.toNat < 65 + k →
      k + t.length ≤ 26 →
      unmentionedOf vs k t = unmentionedOf (c :: vs) k t := by
  intro t
  induction t with
  | nil => intro k vs _ _; rfl
  | cons h t ih =>
    intro k vs hlt hb
    have hlab : (Char.ofNat (65 + k)).toNat = 65 + k :=
      char_toNat_ofNat (by simp only [List.length_cons] at hb; omega)
    have hne : Char.ofNat (65 + k) ≠ c := by
      intro he
      rw [he] at hlab
      omega
    show (if Char.ofNat (65 + k) ∈ vs then unmentionedOf vs (k + 1) t
        else h :: unmentionedOf vs (k + 1) t)
      = (if Char.ofNat (65 + k) ∈ c :: vs then unmentionedOf (c :: vs) (k + 1) t
        else h :: unmentionedOf (c :: vs) (k + 1) t)
    have hmemiff : (Char.ofNat (65 + k) ∈ c :: vs) ↔ (Char.ofNat (65 + k) ∈ vs) := by
      simp only [List.mem_cons]
      constructor
      · intro hm
        rcases hm with hm | hm
        · exact absurd hm hne
        · exact hm
      · exact Or.inr
    have ht : unmentionedOf vs (k + 1) t = unmentionedOf (c :: vs) (k + 1) t :=
      ih (k + 1) vs (by omega) (by simp only [List.length_cons] at hb; omega)
    by_cases hm : Char.ofNat (65 + k) ∈ vs
    · rw [if_pos hm, if_pos (hmemiff.mpr hm), ht]
    · rw [if_neg hm, if_neg (fun h2 => hm (hmemiff.mp h2)), ht]

/-- Pulling one fresh letter out of the unmentioned members: the member it
labels moves to the front. -/
theorem unmentionedOf_pull (c : Char) :
    ∀ (g : List Nat) (k j : Nat) (vs : List Char),
      c ∉ vs → c.toNat = 65 + k + j → j < g.length → k + g.length ≤ 26 →
      (unmentionedOf vs k g).Perm (g.getD j 0 :: unmentionedOf (c :: vs) k g) := by
  intro g
  induction g with
  | nil => intro k j vs _ _ hj _; exact absurd hj (by simp)
  | cons h t ih =>
    intro k j vs hcvs hcn hj hb
    have hlab : (Char.ofNat (65 + k)).toNat = 65 + k :=
      char_toNat_ofNat (by simp only [List.length_cons] at hb; omega)
    cases j with
    | zero =>
      have hceq : Char.ofNat (65 + k) = c := char_toNat_inj (by omega)
      have hlhs : unmentionedOf vs k (h :: t) = h :: unmentionedOf vs (k + 1) t := by
        show (if Char.ofNat (65 + k) ∈ vs then unmentionedOf vs (k + 1) t
          else h :: unmentionedOf vs (k + 1) t) = _
        rw [if_neg (hceq ▸ hcvs)]
      have hrhs : unmentionedOf (c :: vs) k (h :: t)
          = unmentionedOf (c :: vs) (k + 1) t := by
        show (if Char.ofNat (65 + k) ∈ c :: vs then unmentionedOf (c :: vs) (k + 1) t
          else h :: unmentionedOf (c :: vs) (k + 1) t) = _
        rw [if_pos (hceq ▸ List.mem_cons_self _ _)]
      rw [hlhs, hrhs]
      show (h :: unmentionedOf vs (k + 1) t).Perm
        ((h :: t).getD 0 0 :: unmentionedOf (c :: vs) (k + 1) t)
      have hgd : (h :: t).getD 0 0 = h := rfl
      rw [hgd]
      refine List.Perm.cons h ?_
      have := unmentionedOf_cons_of_lt c t (k + 1) vs (by omega)
        (by simp only [List.length_cons] at hb; omega)
      rw [← this]
    | succ j =>
      have hne : Char.ofNat (65 + k) ≠ c := by
        intro he
        rw [he] at hlab
        omega
      have hmemiff : (Char.ofNat (65 + k) ∈ c :: vs) ↔ (Char.ofNat (65 + k) ∈ vs) := by
        simp only [List.mem_cons]
        constructor
        · intro hm
          rcases hm with hm | hm
          · exact absurd hm hne
          · exact hm
        · exact Or.inr
      have hih := ih (k + 1) j vs hcvs (by omega)
        (by simp only [List.length_cons] at hj; omega)
        (by simp only [List.length_cons] at hb; omega)
      have hgd : (h :: t).getD (j + 1) 0 = t.getD j 0 := rfl
      by_cases hm : Char.ofNat (65 + k) ∈ vs
      · have hlhs : unmentionedOf vs k (h :: t) = unmentionedOf vs (k + 1) t := by
          show (if Char.ofNat (65 + k) ∈ vs then unmentionedOf vs (k + 1) t
            else h :: unmentionedOf vs (k + 1) t) = _
          rw [if_pos hm]
        have hrhs : unmentionedOf (c :: vs) k (h :: t)
            = unmentionedOf (c :: vs) (k + 1) t := by
          show (if Char.ofNat (65 + k) ∈ c :: vs then unmentionedOf (c :: vs) (k + 1) t
            else h :: unmentionedOf (c :: vs) (k + 1) t) = _
          rw [if_pos (hmemiff.mpr hm)]
        rw [hlhs, hrhs, hgd]
        exact hih
      · have hlhs : unmentionedOf vs k (h :: t) = h :: unmentionedOf vs (k + 1) t := by
          show (if Char.ofNat (65 + k) ∈ vs then unmentionedOf vs (k + 1) t
            else h :: unmentionedOf vs (k + 1) t) = _
          rw [if_neg hm]
        have hrhs : unmentionedOf (c :: vs) k (h :: t)
            = h :: unmentionedOf (c :: vs) (k + 1) t := by
          show (if Char.ofNat (65 + k) ∈ c :: vs then unmentionedOf (c :: vs) (k + 1) t
            else h :: unmentionedOf (c :: vs) (k + 1) t) = _
          rw [if_neg (fun h2 => hm (hmemiff.mp h2))]
        rw [hlhs, hrhs, hgd]
        exact (List.Perm.cons h hih).trans (List.Perm.swap (t.getD j 0) h _)

/-- `unmentionedOf` depends only on the membership of the letter set. -/
theorem unmentionedOf_congr :
    ∀ (g : List Nat) (k : Nat) (v1 v2 : List Char),
      (∀ x, x ∈ v1 ↔ x ∈ v2) → unmentionedOf v1 k g = unmentionedOf v2 k g := by
  intro g
  induction g with
  | nil => intro k v1 v2 _; rfl
  | cons h t ih =>
    intro k v1 v2 hiff
    show (if Char.ofNat (65 + k) ∈ v1 then unmentionedOf v1 (k + 1) t
        else h :: unmentionedOf v1 (k + 1) t)
      = (if Char.ofNat (65 + k) ∈ v2 then unmentionedOf v2 (k + 1) t
        else h :: unmentionedOf v2 (k + 1) t)
    by_cases hm : Char.ofNat (65 + k) ∈ v1
    · rw [if_pos hm, if_pos ((hiff _).mp hm), ih (k + 1) v1 v2 hiff]
    · rw [if_neg hm, if_neg (fun h2 => hm ((hiff _).mpr h2)), ih (k + 1) v1 v2 hiff]

/-- The mentioned members followed by the unmentioned members are a
permutation of the group, for any duplicate-free in-range letter list. -/
theorem mentioned_unmentioned_perm :
    ∀ (vs : List Char) (g : List Nat), vs.Nodup →
      (∀ c ∈ vs, 65 ≤ c.toNat ∧ c.toNat ≤ 64 + g.length) → g.length ≤ 26 →
      (vs.filterMap (fun (c : Char) => g[c.toNat - 65]?)
        ++ unmentionedOf vs 0 g).Perm g := by
  intro vs
  induction vs with
  | nil =>
    intro g _ _ _
    rw [List.filterMap_nil, List.nil_append, unmentionedOf_nil]
  | cons c vs2 ih =>
    intro g hnd hall hlen
    have hrange := hall c (List.mem_cons_self _ _)
    have hidx : c.toNat - 65 < g.length := by omega
    have hget : g[c.toNat - 65]? = some (g.getD (c.toNat - 65) 0) := by
      rw [List.getElem?_eq_getElem hidx, List.getD_eq_getElem g 0 hidx]
    rw [List.filterMap_cons, hget]
    rw [List.nodup_cons] at hnd
    have hpull := unmentionedOf_pull c g 0 (c.toNat - 65) vs2 hnd.1 (by omega) hidx
      (by omega)
    have hih := ih g hnd.2 (fun d hd => hall d (List.mem_cons_of_mem _ hd)) hlen
    show (g.getD (c.toNat - 65) 0
        :: List.filterMap (fun (d : Char) => g[d.toNat - 65]?) vs2
        ++ unmentionedOf (c :: vs2) 0 g).Perm g
    refine List.Perm.trans (List.Perm.trans List.perm_middle.symm ?_) hih
    exact List.Perm.append_left _ hpull.symm

/-- **C4.** For every non-empty group of at most 26 headlines, every judge
response text, and every resolution of the two shuffles, `rank_group`
returns a permutation of the group: the first line containing
comma-separated letters with at least half of the expected labels
determines the order of the mentioned members, members not mentioned on
that line are appended (shuffled) at the tail, and a response with no such
line yields the whole group in shuffled order. -/
theorem rank_group_permutation (group : List Nat) (response_text : String)
    (shufUnmentioned shufAll : List Nat → List Nat)
    (hg : group ≠ []) (hle : group.length ≤ 26)
    (hs1 : ∀ l, (shufUnmentioned l).Perm l) (hs2 : ∀ l, (shufAll l).Perm l) :
    (rank_group shufUnmentioned shufAll group response_text).Perm group
    ∧ ((parse_valid group response_text).isEmpty = true →
        rank_group shufUnmentioned shufAll group response_text
          = shufAll (shufUnmentioned group)) := by
  have hrange : ∀ c ∈ parse_valid group response_text,
      65 ≤ c.toNat ∧ c.toNat ≤ 64 + group.length := by
    intro c hc
    have h2 := parse_valid_range group response_text c hc
    have h65 : ('A' : Char).toNat = 65 := by decide
    have hmax : (Char.ofNat (64 + group.length)).toNat = 64 + group.length :=
      char_toNat_ofNat (by omega)
    exact ⟨h65 ▸ char_le_iff.mp h2.1, hmax ▸ char_le_iff.mp h2.2⟩
  have hvsmem : ∀ x, x ∈ dedupSeen [] (parse_valid group response_text)
      ↔ x ∈ parse_valid group response_text := by
    intro x
    rw [dedupSeen_mem]
    simp
  have hco : unmentionedOf (parse_valid group response_text) 0 group
      = unmentionedOf (dedupSeen [] (parse_valid group response_text)) 0 group :=
    unmentionedOf_congr group 0 _ _ (fun x => (hvsmem x).symm)
  have hperm0 : (mentionedOf group (parse_valid group response_text)
      ++ unmentionedOf (parse_valid group response_text) 0 group).Perm group := by
    rw [hco]
    exact mentioned_unmentioned_perm (dedupSeen [] (parse_valid group response_text))
      group (dedupSeen_nodup _ _)
      (fun c hc => hrange c ((hvsmem c).mp hc)) hle
  by_cases hval : (parse_valid group response_text).isEmpty = true
  · have hvalnil : parse_valid group response_text = [] := by
      rwa [List.isEmpty_iff] at hval
    have hres : rank_group shufUnmentioned shufAll group response_text
        = shufAll (shufUnmentioned group) := by
      unfold rank_group
      rw [if_pos hval]
      unfold ordered_of
      rw [hvalnil, unmentionedOf_nil]
      rw [if_neg (fun h2 => hg (List.isEmpty_iff.mp h2))]
      have hment : mentionedOf group ([] : List Char) = [] := rfl
      rw [hment, List.nil_append]
    refine ⟨?_, fun _ => hres⟩
    rw [hres]
    exact (hs2 _).trans (hs1 _)
  · refine ⟨?_, fun h2 => absurd h2 hval⟩
    unfold rank_group
    rw [if_neg hval]
    unfold ordered_of
    by_cases hu : (unmentionedOf (parse_valid group response_text) 0 group).isEmpty = true
    · rw [if_pos hu]
      have hunil : unmentionedOf (parse_valid group response_text) 0 group = [] := by
        rwa [List.isEmpty_iff] at hu
      rw [hunil, List.append_nil] at hperm0
      exact hperm0
    · rw [if_neg hu]
      exact (List.Perm.append_left _ (hs1 _)).trans hperm0

/-- Witness for C4 on a concrete 3-headline group. -/
theorem rank_group_permutation_witness :
    (rank_group id id [7, 8, 9] "B, C, A").Perm [7, 8, 9] :=
  (rank_group_permutation [7, 8, 9] "B, C, A" id id (by decide) (by decide)
    (fun l => List.Perm.refl l) (fun l => List.Perm.refl l)).1

end News2000
